import Mathlib

/-!
Template collection loader (`templates.go`)

A shallow embedding of the Go package `templates`: the collection type `Templates`, its
constructor `New`, the extension filter (`AddExts`, `check`), the walk callback `parseFile`,
the two-pass build `Parse`, and the lookup handle (`Get`, `Render`).

Conventions of the embedding.

* A Go `map[string]V` is a key-unique association list (`GoMap`).  The order in which `range`
  visits a map is not fixed by the language; every loop over a map takes it from a
  `RangeOrder`, and the theorems hold for every order.
* A nil-able pointer `*T` is an `Option T`.
* A Go `error` is an `Option String` (`none` is `nil`).  A run-time panic is the explicit
  outcome `Result.panic`.
* The standard library and `html/template` are outside the package.  The few string and path
  functions used are written out (`HasPrefix`, `ReplaceFirst`, `Ext`, `Join`); `filepath.Walk`
  is the sequence of calls it makes to the walk function; `html/template` is an `Engine`
  parameter giving its parser (the bodies a text defines, or the syntax error), its test for
  empty bodies and its execution, while the way parsed bodies join the namespace of a template
  (`New`, `Parse`, `AddParseTree`) is written out; a compiled template is its name together
  with the namespace of the templates associated with it.
* Go strings are byte strings; they are embedded as Lean strings, prefix and substring tests
  being taken character by character.
-/

set_option linter.dupNamespace false

namespace templates

/-! ## Strings and paths -/

/-- `strings.HasPrefix(s, prefix)`. -/
def HasPrefix (s pre : String) : Bool :=
  pre.data.isPrefixOf s.data

/-- Character-level body of `strings.Replace(s, old, new, 1)`: the first occurrence of `old`
in the text is replaced by `new`; a text without occurrence is returned unchanged. -/
def replaceFirst (old new : List Char) : List Char → List Char
  | [] => if old.isEmpty then new else []
  | c :: cs =>
    if old.isPrefixOf (c :: cs) then new ++ (c :: cs).drop old.length
    else c :: replaceFirst old new cs

/-- `strings.Replace(s, old, new, 1)`. -/
def ReplaceFirst (s old new : String) : String :=
  ⟨replaceFirst old.data new.data s.data⟩

/-- Backward scan of `filepath.Ext`: the characters are visited from the last one; a slash
ends the scan without extension, a dot ends it with the suffix starting at that dot. -/
def extScan : List Char → List Char → List Char
  | [], _ => []
  | c :: rest, acc =>
    if c = '/' then []
    else if c = '.' then '.' :: acc
    else extScan rest (c :: acc)

/-- `filepath.Ext(path)`: the suffix beginning at the final dot of the final path element,
empty if there is no dot. -/
def Ext (path : String) : String :=
  ⟨extScan path.data.reverse []⟩

/-- Split a path at its slashes. -/
def splitSlash : List Char → List (List Char)
  | [] => [[]]
  | c :: cs =>
    match splitSlash cs with
    | [] => [[c]]
    | seg :: segs => if c = '/' then [] :: seg :: segs else (c :: seg) :: segs

/-- One path element of `filepath.Clean`, on the stack of elements kept so far (innermost
first): empty elements and `.` are dropped, `..` removes the element before it when there is
one to remove, and stays at the front of a path that is not rooted. -/
def cleanStep (rooted : Bool) (out : List (List Char)) (seg : List Char) : List (List Char) :=
  if seg = [] ∨ seg = ['.'] then out
  else if seg = ['.', '.'] then
    match out with
    | [] => if rooted then [] else [seg]
    | top :: rest => if top = ['.', '.'] then seg :: out else rest
  else seg :: out

/-- `filepath.Clean(path)` on slash-separated paths. -/
def Clean (path : String) : String :=
  let rooted := path.data.head? = some '/'
  let segs := ((splitSlash path.data).foldl (cleanStep rooted) []).reverse
  let body : List Char := List.intercalate ['/'] segs
  if rooted then ⟨'/' :: body⟩ else if body = [] then "." else ⟨body⟩

/-- `filepath.Join(dir, name)` for two elements: the non-empty ones are joined by a slash and
the result is cleaned; this is how `filepath.Walk` names everything below its root. -/
def Join (dir name : String) : String :=
  if dir = "" ∧ name = "" then ""
  else if dir = "" then Clean name
  else if name = "" then Clean dir
  else Clean (dir ++ "/" ++ name)

/-! ## Go maps -/

/-- A Go `map[string]V`: an association list in which no key occurs twice. -/
structure GoMap (V : Type) where
  entries : List (String × V)
  nodup : (entries.map Prod.fst).Nodup

namespace GoMap

variable {V : Type}

/-- The map made by `make(map[string]V)`; a nil map reads the same way. -/
def empty : GoMap V := ⟨[], List.nodup_nil⟩

/-- The index expression `m[k]` with the comma-ok flag: `none` when `k` is not a key. -/
def get (m : GoMap V) (k : String) : Option V :=
  m.entries.lookup k

/-- The assignment `m[k] = v`: the binding of `k` is added or replaced. -/
def set (m : GoMap V) (k : String) (v : V) : GoMap V :=
  ⟨(k, v) :: m.entries.filter (fun e => e.1 != k), by
    have hsub : List.Sublist ((m.entries.filter (fun e => e.1 != k)).map Prod.fst)
        (m.entries.map Prod.fst) := (List.filter_sublist m.entries).map Prod.fst
    have hnot : k ∉ (m.entries.filter (fun e => e.1 != k)).map Prod.fst := by
      intro hk
      obtain ⟨e, he, hek⟩ := List.mem_map.1 hk
      have := (List.mem_filter.1 he).2
      simp [hek] at this
    exact List.nodup_cons.2 ⟨hnot, m.nodup.sublist hsub⟩⟩

/-- The builtin `len(m)`. -/
def len (m : GoMap V) : Nat := m.entries.length

/-- The keys of the map. -/
def keys (m : GoMap V) : List String := m.entries.map Prod.fst

end GoMap

/-- The order in which a `range` statement visits the entries of a map. Go leaves it
unspecified; an order is any rearrangement of the entries. -/
structure RangeOrder where
  pick : (V : Type) → List (String × V) → List (String × V)
  perm : ∀ (V : Type) (l : List (String × V)), List.Perm (pick V l) l

/-- The order in which the entries are stored. -/
def RangeOrder.stored : RangeOrder := ⟨fun _ l => l, fun _ l => List.Perm.refl l⟩

/-- The reverse of the order in which the entries are stored. -/
def RangeOrder.reversed : RangeOrder := ⟨fun _ l => l.reverse, fun _ l => List.reverse_perm l⟩

/-! ## The templating engine -/

/-- A compiled `*template.Template` of `html/template` as the registry sees it: its name, and
its namespace, the templates associated with it. A name of the namespace is bound to the body
of its definition, or to `none` when the name is registered without a parsed body. -/
structure CompiledUnit where
  name : String
  set : GoMap (Option String)

/-- What the package uses of `html/template`, for execution data of type `D`. -/
structure Engine (D : Type) where
  /-- The parser behind `Parse(text)` on a template called `name`: the syntax error, or the
  bodies of the templates the text defines, which are the template `name` itself and the
  `define` blocks of the text. -/
  parse : String → String → Except String (GoMap String)
  /-- The test `parse.IsEmptyTree` on a body: it holds nothing but space and comments. -/
  IsEmptyTree : String → Bool
  /-- The call `t.ExecuteTemplate(w, name, data)` on a non-nil `t`: the bytes written to `w` and the
  error returned. -/
  ExecuteTemplate : CompiledUnit → String → D → String × Option String
  /-- The parser returns a body for the template it was asked to parse. -/
  parse_self : ∀ (name text : String) (trees : GoMap String),
    parse name text = Except.ok trees → name ∈ trees.keys

/-- The error of parsing `text` as the template called `name`, in `template.New(name).Parse(text)`
as in `t.New(name).Parse(text)`; `none` when the text parses. -/
def Engine.parseErr {D : Type} (E : Engine D) (name text : String) : Option String :=
  match E.parse name text with
  | Except.ok _ => none
  | Except.error err => some err

/-- The body that the source `text` of the template `name` gives to that name, when it
parses. -/
def Engine.ownBody {D : Type} (E : Engine D) (name text : String) : Option String :=
  match E.parse name text with
  | Except.ok trees => trees.get name
  | Except.error _ => none

/-- Whether the source `text` of the template `name` defines a template called `k`. -/
def Engine.defines {D : Type} (E : Engine D) (name text k : String) : Bool :=
  match E.parse name text with
  | Except.ok trees => (trees.get k).isSome
  | Except.error _ => false

/-- One parsed body joins a namespace, as `AddParseTree` does it: the body is bound to its
name, except that an empty body does not replace the body the name already has. -/
def Engine.addTree {D : Type} (E : Engine D) (set : GoMap (Option String))
    (tree : String × String) : GoMap (Option String) :=
  match set.get tree.1 with
  | some (some _) => if E.IsEmptyTree tree.2 = true then set else set.set tree.1 (some tree.2)
  | _ => set.set tree.1 (some tree.2)

/-- The namespace after a successful `Parse`: every body the text defines has joined it. -/
def Engine.addTrees {D : Type} (E : Engine D) (ρ : RangeOrder) (set : GoMap (Option String))
    (trees : GoMap String) : GoMap (Option String) :=
  (ρ.pick String trees.entries).foldl E.addTree set

/-- The call `template.New(name).Parse(text)`: a fresh template, registered in a namespace of
its own which the bodies of the text then join; or a nil template and the error. -/
def Engine.newParse {D : Type} (E : Engine D) (ρ : RangeOrder) (name text : String) :
    Option CompiledUnit × Option String :=
  match E.parse name text with
  | Except.ok trees => (some ⟨name, E.addTrees ρ (GoMap.empty.set name none) trees⟩, none)
  | Except.error err => (none, some err)

/-! ## The collection -/

/-- The variable `DefaultViewsDir`. -/
def DefaultViewsDir : String := "views"

/-- The type `Templates`: the parsed html templates. -/
structure Templates where
  Templates : GoMap (Option CompiledUnit)
  Extensions : GoMap Bool
  ViewsDir : String
  Dir : String
  Views : GoMap String
  Partials : GoMap String

/-- The constructor `New`. -/
def New : Templates :=
  { Templates := GoMap.empty
    Extensions := GoMap.empty
    ViewsDir := DefaultViewsDir
    Dir := ""
    Views := GoMap.empty
    Partials := GoMap.empty }

/-- The method `AddExts`: the extension set is replaced by the set of the listed extensions. -/
def AddExts (t : Templates) (extensions : List String) : Templates :=
  { t with Extensions := extensions.foldl (fun exts ext => exts.set ext true) GoMap.empty }

/-- The loop of `check`: the first key equal to `ext` returns true. -/
def checkLoop (ext : String) : List (String × Bool) → Bool
  | [] => false
  | (x, _) :: rest => if ext = x then true else checkLoop ext rest

/-- The method `check`: does the extension pass the filter. -/
def check (ρ : RangeOrder) (t : Templates) (ext : String) : Bool :=
  if t.Extensions.len = 0 then true
  else checkLoop ext (ρ.pick Bool t.Extensions.entries)

/-- The `os.FileInfo` of a walked entry, as far as `parseFile` reads it. -/
structure FileInfo where
  Name : String
  IsDir : Bool

/-- One call of the walk function by `filepath.Walk`: the path, the file information, the
error `Walk` reports for the path, and what `os.Open` followed by `ioutil.ReadAll` yields
for it (an error, or the contents). -/
structure Visit where
  path : String
  info : FileInfo
  err : Option String
  read : Except String String

/-- The method `parseFile`, the walk function: the collection after the call and the error
returned. -/
def parseFile (ρ : RangeOrder) (t : Templates) (v : Visit) : Templates × Option String :=
  match v.err with
  | some err => (t, some err)
  | none =>
    let ext := Ext v.info.Name
    if v.info.IsDir || !check ρ t ext then (t, none)
    else
      match v.read with
      | .error err => (t, some err)
      | .ok contents =>
        let subPath := ReplaceFirst v.path (t.Dir ++ "/") ""
        if HasPrefix subPath (t.ViewsDir ++ "/") then
          ({ t with Views := t.Views.set subPath contents }, none)
        else
          ({ t with Partials := t.Partials.set subPath contents }, none)

/-- The call `filepath.Walk(dir, t.parseFile)` on the visits the file system gives rise to:
the walk function is called on each in turn, and the first error ends the walk. -/
def Walk (ρ : RangeOrder) (t : Templates) : List Visit → Templates × Option String
  | [] => (t, none)
  | v :: rest =>
    match parseFile ρ t v with
    | (t1, some err) => (t1, some err)
    | (t1, none) => Walk ρ t1 rest

/-- How a call ends: normally without error, normally with an error value, or in a run-time
panic (a nil pointer dereference). -/
inductive Result where
  | ok
  | error (msg : String)
  | panic
  deriving DecidableEq, Repr

/-- The first loop of `Parse`, over the views in range order: every view is compiled under
its path and stored in the registry. The two results of `template.New(name).Parse(tmpl)` are
assigned together, so a failing view leaves a nil template at its key before the error is
returned. -/
def compileViews {D : Type} (E : Engine D) (ρ : RangeOrder)
    (tmpls : GoMap (Option CompiledUnit)) :
    List (String × String) → GoMap (Option CompiledUnit) × Option String
  | [] => (tmpls, none)
  | (name, tmpl) :: rest =>
    match E.newParse ρ name tmpl with
    | (u, some err) => (tmpls.set name u, some err)
    | (u, none) => compileViews E ρ (tmpls.set name u) rest

/-- The inner loop of the second pass for the view template called `self`:
`baseTmpl.New(name).Parse(tmpl)` for every partial in range order. Each new template joins the
namespace of the view, which all the templates obtained on the way share, so the loop is
followed on that namespace. `New` registers the name before the text is parsed: a partial
that does not parse leaves its name registered without body and ends the loop with the error,
and a partial that bears the name of the view template itself makes `New` reset that template
and disassociate it from the namespace, which the flag records. -/
def attachPartials {D : Type} (E : Engine D) (ρ : RangeOrder) (self : String)
    (set : GoMap (Option String)) (reset : Bool) :
    List (String × String) → GoMap (Option String) × Bool × Option String
  | [] => (set, reset, none)
  | (name, tmpl) :: rest =>
    match E.parse name tmpl with
    | Except.error err => (set.set name none, reset || name == self, some err)
    | Except.ok trees =>
      attachPartials E ρ self (E.addTrees ρ set trees) (reset || name == self) rest

/-- The view template the registry points to, after the inner loop: the template with the
namespace as extended, or, once reset, an empty template of the same name alone in a fresh
namespace. -/
def settle (baseTmpl : CompiledUnit) (set : GoMap (Option String)) (reset : Bool) :
    CompiledUnit :=
  if reset = true then ⟨baseTmpl.name, GoMap.empty.set baseTmpl.name none⟩
  else ⟨baseTmpl.name, set⟩

/-- The second loop of `Parse`, over the registry in range order: all partials are attached to
each view. The registry holds a pointer to the view template, whose namespace the inner loop
extends in place; the embedding writes the template back at the key of the view. Calling
`New` on a nil template dereferences it. -/
def addPartials {D : Type} (E : Engine D) (ρ : RangeOrder) (partials : List (String × String))
    (tmpls : GoMap (Option CompiledUnit)) :
    List (String × Option CompiledUnit) → GoMap (Option CompiledUnit) × Result
  | [] => (tmpls, Result.ok)
  | (_, none) :: rest =>
    if partials.isEmpty then addPartials E ρ partials tmpls rest else (tmpls, Result.panic)
  | (view, some baseTmpl) :: rest =>
    match attachPartials E ρ baseTmpl.name baseTmpl.set false partials with
    | (set, reset, some err) =>
      (tmpls.set view (some (settle baseTmpl set reset)), Result.error err)
    | (set, reset, none) =>
      addPartials E ρ partials (tmpls.set view (some (settle baseTmpl set reset))) rest

/-- The method `Parse`: walk the directory, require a view, compile the views, attach the
partials. The collection is returned in every case, with the outcome. The visits are those
`filepath.Walk` makes for `dir`. -/
def Parse {D : Type} (ρ : RangeOrder) (E : Engine D) (t : Templates) (dir : String)
    (visits : List Visit) : Templates × Result :=
  match Walk ρ { t with Dir := dir } visits with
  | (t1, some err) => (t1, Result.error err)
  | (t1, none) =>
    if t1.Views.len = 0 then (t1, Result.error "no views were found")
    else
      match compileViews E ρ t1.Templates (ρ.pick String t1.Views.entries) with
      | (tmpls, some err) => ({ t1 with Templates := tmpls }, Result.error err)
      | (tmpls, none) =>
        match addPartials E ρ (ρ.pick String t1.Partials.entries) tmpls
            (ρ.pick (Option CompiledUnit) tmpls.entries) with
        | (tmpls2, r) => ({ t1 with Templates := tmpls2 }, r)

/-! ## Lookup and rendering -/

/-- The type `Template`, the handle returned by `Get`. The pointer to the collection is
embedded as the collection it points to at the time of the call. -/
structure Template where
  templates : Templates
  name : String
  err : Option String

/-- The method `Get`: look up a template by view name. -/
def Get (t : Templates) (name : String) : Template :=
  match t.Templates.get name with
  | some _ => { templates := t, name := name, err := none }
  | none => { templates := t, name := name, err := some "template not found" }

/-- The method `Render`: the sink after the call (what it held, followed by the bytes
written) and the outcome. A key that is absent reads as the nil template, as does a key
bound to nil, and `ExecuteTemplate` dereferences its receiver. -/
def Render {D : Type} (E : Engine D) (t : Template) (w : String) (name : String) (data : D) :
    String × Result :=
  match t.err with
  | some err => (w, Result.error err)
  | none =>
    match t.templates.Templates.get t.name with
    | some (some u) =>
      match E.ExecuteTemplate u name data with
      | (out, none) => (w ++ out, Result.ok)
      | (out, some err) => (w ++ out, Result.error err)
    | _ => (w, Result.panic)

/-- What the compiled unit registered at `view` holds under `name`, as
`t.Templates[view].Lookup(name)` tells it: `none` when there is no unit or no such name,
otherwise the body the name is bound to, if it has one. -/
def Lookup (t : Templates) (view name : String) : Option (Option String) :=
  match t.Templates.get view with
  | some (some u) => u.set.get name
  | _ => none

/-! ## Examples of the collaborators

An engine and a few walked entries to run the definitions on. -/

/-- A text whose `define` block is never closed. -/
def unterminatedDefine : String := "\x7b\x7bdefine \"body\"\x7d\x7dHello"

/-- A text that consists of one block, the definition of `base.html` as `fromview`. -/
def defineBase : String :=
  "\x7b\x7bdefine \"base.html\"\x7d\x7dfromview\x7b\x7bend\x7d\x7d"

/-- The parser of the small engine: it rejects the unterminated `define` block, reads the
block of `defineBase` beside an empty body for the template itself, and takes every other
text as the body of the template. -/
def demoParse (name text : String) : Except String (GoMap String) :=
  if text = unterminatedDefine then Except.error "template: unexpected EOF"
  else if text = defineBase then
    if name = "base.html" then Except.ok (GoMap.empty.set name "fromview")
    else Except.ok ((GoMap.empty.set "base.html" "fromview").set name "")
  else Except.ok (GoMap.empty.set name text)

/-- A small engine: the parser above; a body is empty when it holds nothing but space;
executing a template writes its body, and fails on a name without body. -/
def demoEngine : Engine Unit where
  parse := demoParse
  IsEmptyTree := fun body => body.data.all Char.isWhitespace
  ExecuteTemplate := fun u name _ =>
    match u.set.get name with
    | some (some body) => (body, none)
    | _ => ("", some "html/template: no such template")
  parse_self := by
    intro name text trees h
    unfold demoParse at h
    split at h
    · exact Except.noConfusion h
    · split at h
      · split at h <;> (injection h with h; subst h; simp [GoMap.keys, GoMap.set])
      · injection h with h; subst h; simp [GoMap.keys, GoMap.set]

/-- A readable regular file as the walk delivers it. -/
def fileVisit (path name contents : String) : Visit :=
  ⟨path, ⟨name, false⟩, none, Except.ok contents⟩

/-- A readable directory as the walk delivers it. -/
def dirVisit (path name : String) : Visit :=
  ⟨path, ⟨name, true⟩, none, Except.error "is a directory"⟩

/-- The walk of a small well-formed tree under the root `templates`: a layout, a partial and
one view. -/
def demoTree : List Visit :=
  [dirVisit "templates" "templates",
    fileVisit "templates/base.html" "base.html" "layout",
    dirVisit "templates/partials" "partials",
    fileVisit "templates/partials/nav.html" "nav.html" "menu",
    dirVisit "templates/views" "views",
    fileVisit "templates/views/index.html" "index.html" "page"]

/-- The walk of a tree whose only view has an unterminated `define` block. -/
def badViewTree : List Visit :=
  [dirVisit "templates" "templates",
    fileVisit "templates/base.html" "base.html" "layout",
    dirVisit "templates/views" "views",
    fileVisit "templates/views/bad.html" "bad.html" unterminatedDefine]

/-- The walk of a tree with a valid view and a partial that has an unterminated `define`
block. -/
def badPartialTree : List Visit :=
  [dirVisit "templates" "templates",
    dirVisit "templates/partials" "partials",
    fileVisit "templates/partials/nav.html" "nav.html" unterminatedDefine,
    dirVisit "templates/views" "views",
    fileVisit "templates/views/index.html" "index.html" "page"]

/-- The walk of a tree whose partial `base.html` is an empty file and whose view defines
`base.html` in a block of its own. -/
def emptyLayoutTree : List Visit :=
  [dirVisit "templates" "templates",
    fileVisit "templates/base.html" "base.html" "",
    dirVisit "templates/views" "views",
    fileVisit "templates/views/index.html" "index.html" defineBase]

/-- The walk `filepath.Walk` makes of the documented tree when the root is written with a
trailing slash, `templates/`: the root is passed as written, and every path below it is the
cleaned join of its directory and its name. -/
def slashRootTree : List Visit :=
  [dirVisit "templates/" "templates",
    fileVisit (Join "templates/" "base.html") "base.html" "layout",
    dirVisit (Join "templates/" "views") "views",
    fileVisit (Join (Join "templates/" "views") "index.html") "index.html" "page"]

/-- The collection after a first build with the views directory set to `pages`, which finds
no view in the small tree and fails, and the views directory then set back to `views` for a
second build on the same collection. -/
def retryCollection (ρ : RangeOrder) : Templates :=
  { (Parse ρ demoEngine { New with ViewsDir := "pages" } "templates" demoTree).1 with
    ViewsDir := "views" }

/-! ## Go maps: lookup after assignment -/

theorem lookup_filter_ne {V : Type} (k k' : String) (hne : k' ≠ k) (l : List (String × V)) :
    List.lookup k' (l.filter (fun e => e.1 != k)) = List.lookup k' l := by
  induction l with
  | nil => rfl
  | cons e l ih =>
    obtain ⟨a, b⟩ := e
    by_cases hak : a = k
    · subst hak
      have hka : (k' == a) = false := by simpa using hne
      simp [List.filter, List.lookup, hka, ih]
    · have hf : (a != k) = true := by simpa using hak
      by_cases hk'a : k' = a
      · subst hk'a
        simp [List.filter, hf, List.lookup]
      · have hka : (k' == a) = false := by simpa using hk'a
        simp [List.filter, hf, List.lookup, hka, ih]

theorem lookup_eq_some_iff_mem {V : Type} (k : String) (v : V) (l : List (String × V))
    (hnd : (l.map Prod.fst).Nodup) : List.lookup k l = some v ↔ (k, v) ∈ l := by
  induction l with
  | nil => simp
  | cons e l ih =>
    obtain ⟨a, b⟩ := e
    have hnd' : a ∉ l.map Prod.fst ∧ (l.map Prod.fst).Nodup := by
      simpa [List.nodup_cons] using hnd
    by_cases hka : k = a
    · subst hka
      constructor
      · intro h
        have hb : b = v := by simpa [List.lookup] using h
        subst hb
        exact List.mem_cons_self _ _
      · intro h
        rcases List.mem_cons.1 h with h | h
        · have hb : v = b := by simpa using h
          subst hb
          simp [List.lookup]
        · exact absurd (List.mem_map.2 ⟨(k, v), h, rfl⟩) hnd'.1
    · have hbeq : (k == a) = false := by simpa using hka
      have hne : (k, v) ≠ (a, b) := fun h => hka (by simpa using congrArg Prod.fst h)
      simp [List.lookup, hbeq, ih hnd'.2, hne]

theorem lookup_eq_none_iff_not_mem {V : Type} (k : String) (l : List (String × V)) :
    List.lookup k l = none ↔ k ∉ l.map Prod.fst := by
  induction l with
  | nil => simp
  | cons e l ih =>
    obtain ⟨a, b⟩ := e
    by_cases hka : k = a
    · subst hka
      simp [List.lookup]
    · have hbeq : (k == a) = false := by simpa using hka
      simp [List.lookup, hbeq, ih, hka]

namespace GoMap

variable {V : Type}

theorem get_empty (k : String) : (GoMap.empty : GoMap V).get k = none := rfl

theorem get_set_self (m : GoMap V) (k : String) (v : V) : (m.set k v).get k = some v := by
  simp [GoMap.get, GoMap.set, List.lookup]

theorem get_set_ne (m : GoMap V) (k k' : String) (v : V) (hne : k' ≠ k) :
    (m.set k v).get k' = m.get k' := by
  have hbeq : (k' == k) = false := by simpa using hne
  simp [GoMap.get, GoMap.set, List.lookup, hbeq, lookup_filter_ne k k' hne]

theorem get_eq_some_iff (m : GoMap V) (k : String) (v : V) :
    m.get k = some v ↔ (k, v) ∈ m.entries :=
  lookup_eq_some_iff_mem k v m.entries m.nodup

theorem get_eq_none_iff (m : GoMap V) (k : String) : m.get k = none ↔ k ∉ m.keys :=
  lookup_eq_none_iff_not_mem k m.entries

theorem mem_keys_iff (m : GoMap V) (k : String) : k ∈ m.keys ↔ ∃ v, m.get k = some v := by
  constructor
  · intro h
    cases hg : m.get k with
    | none => exact absurd h ((get_eq_none_iff m k).1 hg)
    | some v => exact ⟨v, rfl⟩
  · rintro ⟨v, hv⟩
    by_contra hk
    rw [(get_eq_none_iff m k).2 hk] at hv
    exact Option.noConfusion hv

theorem mem_keys_set (m : GoMap V) (k k' : String) (v : V) :
    k' ∈ (m.set k v).keys ↔ k' = k ∨ k' ∈ m.keys := by
  by_cases h : k' = k
  · subst h
    simp only [true_or, iff_true]
    exact (mem_keys_iff _ _).2 ⟨v, get_set_self m k' v⟩
  · simp only [h, false_or]
    rw [mem_keys_iff, mem_keys_iff, get_set_ne m k k' v h]

theorem len_eq_zero_iff (m : GoMap V) : m.len = 0 ↔ m.entries = [] := by
  simp [GoMap.len]

end GoMap

/-! ## The extension filter -/

theorem checkLoop_iff (ext : String) (l : List (String × Bool)) :
    checkLoop ext l = true ↔ ext ∈ l.map Prod.fst := by
  induction l with
  | nil => simp [checkLoop]
  | cons e l ih =>
    obtain ⟨x, b⟩ := e
    by_cases h : ext = x
    · simp [checkLoop, h]
    · simp [checkLoop, h, ih]

theorem mem_keys_addExts (m : GoMap Bool) (k : String) (exts : List String) :
    k ∈ (exts.foldl (fun acc ext => acc.set ext true) m).keys ↔ k ∈ exts ∨ k ∈ m.keys := by
  induction exts generalizing m with
  | nil => simp
  | cons e exts ih =>
    rw [List.foldl_cons, ih, GoMap.mem_keys_set, List.mem_cons]
    tauto

theorem check_eq_true_iff (ρ : RangeOrder) (t : Templates) (ext : String) :
    check ρ t ext = true ↔ (t.Extensions.len = 0 ∨ ext ∈ t.Extensions.keys) := by
  unfold check
  by_cases h0 : t.Extensions.len = 0
  · simp [h0]
  · simp only [h0, if_false, false_or]
    rw [checkLoop_iff]
    exact ((ρ.perm Bool t.Extensions.entries).map Prod.fst).mem_iff

theorem mem_keys_AddExts (t : Templates) (exts : List String) (k : String) :
    k ∈ (AddExts t exts).Extensions.keys ↔ k ∈ exts := by
  have := mem_keys_addExts GoMap.empty k exts
  simpa [AddExts, GoMap.keys, GoMap.empty] using this

theorem check_AddExts_iff (ρ : RangeOrder) (t : Templates) (exts : List String)
    (hne : exts ≠ []) (ext : String) :
    check ρ (AddExts t exts) ext = true ↔ ext ∈ exts := by
  rw [check_eq_true_iff]
  have hlen : (AddExts t exts).Extensions.len ≠ 0 := by
    intro h0
    obtain ⟨e, he⟩ := List.exists_mem_of_ne_nil exts hne
    have hmem := (mem_keys_AddExts t exts e).2 he
    have hnil := (GoMap.len_eq_zero_iff _).1 h0
    unfold GoMap.keys at hmem
    rw [hnil] at hmem
    simp at hmem
  simp [hlen, mem_keys_AddExts]

/-- C6. The extension filter: `check(ext)` is true exactly when the configured extension set
is empty or `ext` is one of its members, in whatever order the set is ranged over; and after
`AddExts(exts)` with a non-empty list, `check(ext)` is true exactly for the elements of
`exts`. -/
theorem check_iff_empty_or_member (ρ : RangeOrder) (t : Templates) (ext : String) :
    (check ρ t ext = true ↔ (t.Extensions.len = 0 ∨ ext ∈ t.Extensions.keys)) ∧
    (∀ exts : List String, exts ≠ [] →
      (check ρ (AddExts t exts) ext = true ↔ ext ∈ exts)) :=
  ⟨check_eq_true_iff ρ t ext, fun exts hne => check_AddExts_iff ρ t exts hne ext⟩

/-- Witness of C6: with the extensions `.html` and `.tmpl` configured, `.txt` is rejected for
not being listed. -/
theorem check_iff_empty_or_member_witness :
    [".html", ".tmpl"] ≠ [] ∧
    (check RangeOrder.reversed (AddExts New [".html", ".tmpl"]) ".txt" = true ↔
      ".txt" ∈ [".html", ".tmpl"]) :=
  ⟨by decide,
    (check_iff_empty_or_member RangeOrder.reversed New ".txt").2 [".html", ".tmpl"] (by decide)⟩

/-! ## Lookup and rendering -/

/-- C5. Deferred not-found lookup: `Get(name)` always returns a handle for `name` on the
collection; the handle carries the error "template not found" exactly when `name` is not a key
of `Templates`, and carries no error otherwise; and `Render` on a handle that carries an error
returns that error and leaves the sink as it was, whatever sub-template name and data are
passed. -/
theorem get_defers_not_found {D : Type} (E : Engine D) (t : Templates) (name : String) :
    (Get t name).name = name ∧ (Get t name).templates = t ∧
    ((Get t name).err = some "template not found" ↔ t.Templates.get name = none) ∧
    ((Get t name).err = none ↔ name ∈ t.Templates.keys) ∧
    (∀ (h : Template) (e : String), h.err = some e →
      ∀ (w sub : String) (data : D), Render E h w sub data = (w, Result.error e)) := by
  refine ⟨?_, ?_, ?_, ?_, ?_⟩
  · unfold Get; split <;> rfl
  · unfold Get; split <;> rfl
  · unfold Get; split <;> simp_all
  · rw [GoMap.mem_keys_iff]
    unfold Get; split <;> simp_all
  · intro h e he w sub data
    simp [Render, he]

/-- Witness of C5: on the empty collection the handle of `views/missing.html` carries the
error, and rendering through it writes nothing to a sink that already holds text. -/
theorem get_defers_not_found_witness :
    (Get New "views/missing.html").err = some "template not found" ∧
    Render demoEngine (Get New "views/missing.html") "sent" "base.html" () =
      ("sent", Result.error "template not found") :=
  ⟨by decide,
    (get_defers_not_found demoEngine New "views/missing.html").2.2.2.2
      (Get New "views/missing.html") "template not found" (by decide) "sent" "base.html" ()⟩

/-! ## The walk function -/

theorem parseFile_store (ρ : RangeOrder) (t : Templates) (v : Visit) (contents : String)
    (herr : v.err = none) (hdir : v.info.IsDir = false)
    (hchk : check ρ t (Ext v.info.Name) = true) (hread : v.read = Except.ok contents) :
    parseFile ρ t v =
      if HasPrefix (ReplaceFirst v.path (t.Dir ++ "/") "") (t.ViewsDir ++ "/") = true then
        ({ t with Views := t.Views.set (ReplaceFirst v.path (t.Dir ++ "/") "") contents }, none)
      else
        ({ t with Partials := t.Partials.set (ReplaceFirst v.path (t.Dir ++ "/") "") contents },
          none) := by
  simp [parseFile, herr, hdir, hchk, hread]

theorem parseFile_skip (ρ : RangeOrder) (t : Templates) (v : Visit) (herr : v.err = none)
    (hskip : v.info.IsDir = true ∨ check ρ t (Ext v.info.Name) = false) :
    parseFile ρ t v = (t, none) := by
  rcases hskip with h | h <;> simp [parseFile, herr, h]

/-- What a call of the walk function can do: leave the collection as it is, or store the
contents of a readable, accepted file as a view, or store them as a partial. -/
theorem parseFile_cases (ρ : RangeOrder) (t : Templates) (v : Visit) :
    (parseFile ρ t v).1 = t ∨
    (∃ c, v.info.IsDir = false ∧ v.read = Except.ok c ∧
      HasPrefix (ReplaceFirst v.path (t.Dir ++ "/") "") (t.ViewsDir ++ "/") = true ∧
      parseFile ρ t v =
        ({ t with Views := t.Views.set (ReplaceFirst v.path (t.Dir ++ "/") "") c }, none)) ∨
    (∃ c, v.info.IsDir = false ∧ v.read = Except.ok c ∧
      HasPrefix (ReplaceFirst v.path (t.Dir ++ "/") "") (t.ViewsDir ++ "/") = false ∧
      parseFile ρ t v =
        ({ t with Partials := t.Partials.set (ReplaceFirst v.path (t.Dir ++ "/") "") c },
          none)) := by
  cases herr : v.err with
  | some e => left; simp [parseFile, herr]
  | none =>
    by_cases hd : v.info.IsDir = true
    · left; rw [parseFile_skip ρ t v herr (Or.inl hd)]
    · have hd' : v.info.IsDir = false := by simpa using hd
      by_cases hc : check ρ t (Ext v.info.Name) = true
      · cases hr : v.read with
        | error e => left; simp [parseFile, herr, hd', hc, hr]
        | ok c =>
          have hst := parseFile_store ρ t v c herr hd' hc hr
          by_cases hp :
              HasPrefix (ReplaceFirst v.path (t.Dir ++ "/") "") (t.ViewsDir ++ "/") = true
          · right; left
            exact ⟨c, hd', rfl, hp, by rw [hst, if_pos hp]⟩
          · right; right
            exact ⟨c, hd', rfl, by simpa using hp, by rw [hst, if_neg hp]⟩
      · left
        rw [parseFile_skip ρ t v herr (Or.inr (by simpa using hc))]

theorem parseFile_fields (ρ : RangeOrder) (t : Templates) (v : Visit) :
    (parseFile ρ t v).1.Templates = t.Templates ∧
    (parseFile ρ t v).1.Extensions = t.Extensions ∧
    (parseFile ρ t v).1.ViewsDir = t.ViewsDir ∧ (parseFile ρ t v).1.Dir = t.Dir := by
  rcases parseFile_cases ρ t v with h | ⟨c, _, _, _, h⟩ | ⟨c, _, _, _, h⟩ <;> simp [h]

theorem Walk_cons (ρ : RangeOrder) (t : Templates) (v : Visit) (rest : List Visit) :
    Walk ρ t (v :: rest) =
      if (parseFile ρ t v).2 = none then Walk ρ (parseFile ρ t v).1 rest
      else parseFile ρ t v := by
  cases h : parseFile ρ t v with
  | mk t1 e =>
    cases e with
    | none => simp [Walk, h]
    | some err => simp [Walk, h]

theorem Walk_fields (ρ : RangeOrder) (t : Templates) (visits : List Visit) :
    (Walk ρ t visits).1.Templates = t.Templates ∧
    (Walk ρ t visits).1.Extensions = t.Extensions ∧
    (Walk ρ t visits).1.ViewsDir = t.ViewsDir ∧ (Walk ρ t visits).1.Dir = t.Dir := by
  induction visits generalizing t with
  | nil => simp [Walk]
  | cons v rest ih =>
    have hf := parseFile_fields ρ t v
    rw [Walk_cons]
    split
    · obtain ⟨h1, h2, h3, h4⟩ := ih (parseFile ρ t v).1
      exact ⟨h1.trans hf.1, h2.trans hf.2.1, h3.trans hf.2.2.1, h4.trans hf.2.2.2⟩
    · exact hf

/-- The stores stay classified along a walk: if every view key begins with the views
directory and no partial key does, the same holds after the walk. -/
theorem Walk_classified (ρ : RangeOrder) (t : Templates) (visits : List Visit)
    (hV : ∀ k, k ∈ t.Views.keys → HasPrefix k (t.ViewsDir ++ "/") = true)
    (hP : ∀ k, k ∈ t.Partials.keys → HasPrefix k (t.ViewsDir ++ "/") = false) :
    (∀ k, k ∈ (Walk ρ t visits).1.Views.keys → HasPrefix k (t.ViewsDir ++ "/") = true) ∧
    (∀ k, k ∈ (Walk ρ t visits).1.Partials.keys →
      HasPrefix k (t.ViewsDir ++ "/") = false) := by
  induction visits generalizing t with
  | nil => exact ⟨hV, hP⟩
  | cons v rest ih =>
    have hstep :
        (∀ k, k ∈ (parseFile ρ t v).1.Views.keys → HasPrefix k (t.ViewsDir ++ "/") = true) ∧
        (∀ k, k ∈ (parseFile ρ t v).1.Partials.keys →
          HasPrefix k (t.ViewsDir ++ "/") = false) := by
      rcases parseFile_cases ρ t v with h | ⟨c, _, _, hp, h⟩ | ⟨c, _, _, hp, h⟩
      · rw [h]; exact ⟨hV, hP⟩
      · rw [h]
        refine ⟨fun k hk => ?_, hP⟩
        rcases (GoMap.mem_keys_set _ _ _ _).1 hk with hk | hk
        · rw [hk]; exact hp
        · exact hV k hk
      · rw [h]
        refine ⟨hV, fun k hk => ?_⟩
        rcases (GoMap.mem_keys_set _ _ _ _).1 hk with hk | hk
        · rw [hk]; exact hp
        · exact hP k hk
    rw [Walk_cons]
    split
    · have hvd := (parseFile_fields ρ t v).2.2.1
      have := ih (parseFile ρ t v).1 (by rw [hvd]; exact hstep.1) (by rw [hvd]; exact hstep.2)
      rw [hvd] at this
      exact this
    · exact hstep

/-- C1. Classification is prefix-exact and exclusive. Whenever `parseFile` computes a relative
path `p` for a file (no walk error, a regular file, accepted by the extension filter, read in
full), the contents are stored under key `p` in `Views`, `Partials` being left as it was, if `p`
begins with the views directory followed by a slash, and under key `p` in `Partials`, `Views`
being left as it was, if it does not. Along a walk that starts with empty stores every key of
`Views` has the prefix and no key of `Partials` has it, so no path is in both. With the
views directory `views`: `views/x.html` is stored as a view, `viewsx/x.html` and
`partials/views/x.html` are stored as partials. -/
theorem parseFile_classification (ρ : RangeOrder) :
    (∀ (t : Templates) (v : Visit) (contents : String),
      v.err = none → v.info.IsDir = false → check ρ t (Ext v.info.Name) = true →
      v.read = Except.ok contents →
      (HasPrefix (ReplaceFirst v.path (t.Dir ++ "/") "") (t.ViewsDir ++ "/") = true →
        parseFile ρ t v =
          ({ t with Views := t.Views.set (ReplaceFirst v.path (t.Dir ++ "/") "") contents },
            none)) ∧
      (HasPrefix (ReplaceFirst v.path (t.Dir ++ "/") "") (t.ViewsDir ++ "/") = false →
        parseFile ρ t v =
          ({ t with
              Partials := t.Partials.set (ReplaceFirst v.path (t.Dir ++ "/") "") contents },
            none))) ∧
    (∀ (viewsDir dir : String) (exts : GoMap Bool) (visits : List Visit) (k : String),
      (k ∈ (Walk ρ { New with ViewsDir := viewsDir, Dir := dir, Extensions := exts }
          visits).1.Views.keys → HasPrefix k (viewsDir ++ "/") = true) ∧
      (k ∈ (Walk ρ { New with ViewsDir := viewsDir, Dir := dir, Extensions := exts }
          visits).1.Partials.keys → HasPrefix k (viewsDir ++ "/") = false)) ∧
    (∀ contents : String,
      ((parseFile ρ { New with Dir := "site" }
          (fileVisit "site/views/x.html" "x.html" contents)).1.Views.get "views/x.html"
            = some contents ∧
        (parseFile ρ { New with Dir := "site" }
          (fileVisit "site/views/x.html" "x.html" contents)).1.Partials.get "views/x.html"
            = none) ∧
      ((parseFile ρ { New with Dir := "site" }
          (fileVisit "site/viewsx/x.html" "x.html" contents)).1.Partials.get "viewsx/x.html"
            = some contents ∧
        (parseFile ρ { New with Dir := "site" }
          (fileVisit "site/viewsx/x.html" "x.html" contents)).1.Views.get "viewsx/x.html"
            = none) ∧
      ((parseFile ρ { New with Dir := "site" }
          (fileVisit "site/partials/views/x.html" "x.html" contents)).1.Partials.get
            "partials/views/x.html" = some contents ∧
        (parseFile ρ { New with Dir := "site" }
          (fileVisit "site/partials/views/x.html" "x.html" contents)).1.Views.get
            "partials/views/x.html" = none)) := by
  refine ⟨?_, ?_, ?_⟩
  · intro t v contents herr hdir hchk hread
    have hst := parseFile_store ρ t v contents herr hdir hchk hread
    constructor
    · intro hp; rw [hst, if_pos hp]
    · intro hp; rw [hst, if_neg (by simp [hp])]
  · intro viewsDir dir exts visits k
    have h := Walk_classified ρ
      { New with ViewsDir := viewsDir, Dir := dir, Extensions := exts } visits
      (by intro k hk; simp [New, GoMap.keys, GoMap.empty] at hk)
      (by intro k hk; simp [New, GoMap.keys, GoMap.empty] at hk)
    exact ⟨h.1 k, h.2 k⟩
  · intro contents
    have hchk : ∀ name, check ρ { New with Dir := "site" } (Ext name) = true := by
      intro name
      exact (check_eq_true_iff ρ _ _).2 (Or.inl rfl)
    have hst : ∀ path, parseFile ρ { New with Dir := "site" }
        (fileVisit path "x.html" contents) = _ :=
      fun path => parseFile_store ρ { New with Dir := "site" }
        (fileVisit path "x.html" contents) contents rfl rfl (hchk _) rfl
    have e1 : ReplaceFirst "site/views/x.html" ("site" ++ "/") "" = "views/x.html" := by
      decide
    have e2 : ReplaceFirst "site/viewsx/x.html" ("site" ++ "/") "" = "viewsx/x.html" := by
      decide
    have e3 : ReplaceFirst "site/partials/views/x.html" ("site" ++ "/") ""
        = "partials/views/x.html" := by decide
    have p1 : HasPrefix "views/x.html" ("views" ++ "/") = true := by decide
    have p2 : HasPrefix "viewsx/x.html" ("views" ++ "/") = false := by decide
    have p3 : HasPrefix "partials/views/x.html" ("views" ++ "/") = false := by decide
    refine ⟨?_, ?_, ?_⟩
    · rw [hst]
      simp only [fileVisit, New, DefaultViewsDir, e1, p1, if_true]
      exact ⟨GoMap.get_set_self _ _ _, rfl⟩
    · rw [hst]
      simp only [fileVisit, New, DefaultViewsDir, e2, p2]
      exact ⟨GoMap.get_set_self _ _ _, rfl⟩
    · rw [hst]
      simp only [fileVisit, New, DefaultViewsDir, e3, p3]
      exact ⟨GoMap.get_set_self _ _ _, rfl⟩

/-- Witness of C1: under the root `site`, the file `site/views/x.html` is stored as the view
`views/x.html`. -/
theorem parseFile_classification_witness :
    parseFile RangeOrder.stored { New with Dir := "site" }
        (fileVisit "site/views/x.html" "x.html" "hello") =
      ({ New with
          Dir := "site"
          Views := GoMap.empty.set
            (ReplaceFirst "site/views/x.html" ("site" ++ "/") "") "hello" }, none) :=
  ((parseFile_classification RangeOrder.stored).1 { New with Dir := "site" }
    (fileVisit "site/views/x.html" "x.html" "hello") "hello" rfl rfl (by decide) rfl).1
    (by decide)

/-- C10, as the claim states it, fails on a directory the walk could not read: `filepath.Walk`
hands the directory to the walk function together with the error, and `parseFile`, with a
non-empty allow-list, returns that error. -/
theorem parseFile_directory_with_walk_error :
    (AddExts New [".html"]).Extensions.len ≠ 0 ∧
    (parseFile RangeOrder.stored (AddExts New [".html"])
      ⟨"templates/views", ⟨"views", true⟩, some "open templates/views: permission denied",
        Except.error "is a directory"⟩).2 = some "open templates/views: permission denied" :=
  ⟨by decide, by decide⟩

/-- C10, amended. Filtered entries leave the collection untouched: with a non-empty allow-list,
for every walked entry that is a directory or a file whose extension is not in the allow-list,
`parseFile` leaves `Views` and `Partials` (and the rest of the collection) as they were, and
returns the error the walk reports for the entry, hence none when the walk reports none. So
with the allow-list `.html`, a tree whose only file under `views` is `notes.txt` has that file
in neither store and `Parse` fails with "no views were found". -/
theorem parseFile_filtered_frame (ρ : RangeOrder) :
    (∀ (t : Templates) (v : Visit), t.Extensions.len ≠ 0 →
      (v.info.IsDir = true ∨ Ext v.info.Name ∉ t.Extensions.keys) →
      (parseFile ρ t v).1 = t ∧ (parseFile ρ t v).2 = v.err) ∧
    (∀ (D : Type) (E : Engine D) (contents : String),
      (Parse ρ E (AddExts New [".html"]) "templates"
        [dirVisit "templates" "templates", dirVisit "templates/views" "views",
          fileVisit "templates/views/notes.txt" "notes.txt" contents]).2
        = Result.error "no views were found" ∧
      (Parse ρ E (AddExts New [".html"]) "templates"
        [dirVisit "templates" "templates", dirVisit "templates/views" "views",
          fileVisit "templates/views/notes.txt" "notes.txt" contents]).1.Views.entries = [] ∧
      (Parse ρ E (AddExts New [".html"]) "templates"
        [dirVisit "templates" "templates", dirVisit "templates/views" "views",
          fileVisit "templates/views/notes.txt" "notes.txt" contents]).1.Partials.entries
        = []) := by
  constructor
  · intro t v hne hf
    cases herr : v.err with
    | some e => simp [parseFile, herr]
    | none =>
      have hskip : v.info.IsDir = true ∨ check ρ t (Ext v.info.Name) = false := by
        rcases hf with h | h
        · exact Or.inl h
        · right
          cases hc : check ρ t (Ext v.info.Name) with
          | false => rfl
          | true =>
            rcases (check_eq_true_iff ρ t _).1 hc with h0 | hm
            · exact absurd h0 hne
            · exact absurd hm h
      rw [parseFile_skip ρ t v herr hskip]
      exact ⟨rfl, rfl⟩
  · intro D E contents
    have hchk : check ρ { AddExts New [".html"] with Dir := "templates" }
        (Ext "notes.txt") = false := by
      cases hc : check ρ { AddExts New [".html"] with Dir := "templates" }
          (Ext "notes.txt") with
      | false => rfl
      | true =>
        rcases (check_eq_true_iff ρ _ _).1 hc with h0 | hm
        · exact absurd h0 (by decide)
        · exact absurd hm (by decide)
    have h1 : ∀ path name, parseFile ρ { AddExts New [".html"] with Dir := "templates" }
        (dirVisit path name) = ({ AddExts New [".html"] with Dir := "templates" }, none) :=
      fun path name => parseFile_skip ρ _ _ rfl (Or.inl rfl)
    have h3 : parseFile ρ { AddExts New [".html"] with Dir := "templates" }
        (fileVisit "templates/views/notes.txt" "notes.txt" contents)
        = ({ AddExts New [".html"] with Dir := "templates" }, none) :=
      parseFile_skip ρ _ _ rfl (Or.inr hchk)
    have hw : Walk ρ { AddExts New [".html"] with Dir := "templates" }
        [dirVisit "templates" "templates", dirVisit "templates/views" "views",
          fileVisit "templates/views/notes.txt" "notes.txt" contents]
        = ({ AddExts New [".html"] with Dir := "templates" }, none) := by
      simp [Walk, h1, h3]
    simp only [Parse, hw]
    exact ⟨rfl, rfl, rfl⟩

/-- Witness of C10, amended: with the allow-list `.html`, the directory `templates/views` is
passed over. -/
theorem parseFile_filtered_frame_witness :
    (parseFile RangeOrder.stored (AddExts New [".html"])
        (dirVisit "templates/views" "views")).1 = AddExts New [".html"] ∧
    (parseFile RangeOrder.stored (AddExts New [".html"])
        (dirVisit "templates/views" "views")).2 = (dirVisit "templates/views" "views").err :=
  (parseFile_filtered_frame RangeOrder.stored).1 (AddExts New [".html"])
    (dirVisit "templates/views" "views") (by decide) (Or.inl rfl)

/-! ## The walk -/

theorem Walk_no_view (ρ : RangeOrder) (t : Templates) (visits : List Visit)
    (hno : ∀ v ∈ visits, v.info.IsDir = false →
      HasPrefix (ReplaceFirst v.path (t.Dir ++ "/") "") (t.ViewsDir ++ "/") = false) :
    (Walk ρ t visits).1.Views = t.Views := by
  induction visits generalizing t with
  | nil => rfl
  | cons v rest ih =>
    have hstep : (parseFile ρ t v).1.Views = t.Views := by
      rcases parseFile_cases ρ t v with h | ⟨c, hd, _, hp, _⟩ | ⟨c, _, _, _, h⟩
      · rw [h]
      · rw [hno v (List.mem_cons_self _ _) hd] at hp
        exact Bool.noConfusion hp
      · rw [h]
    rw [Walk_cons]
    split
    · have hf := parseFile_fields ρ t v
      rw [ih (parseFile ρ t v).1 (by
        intro w hw hd
        rw [hf.2.2.2, hf.2.2.1]
        exact hno w (List.mem_cons_of_mem _ hw) hd), hstep]
    · exact hstep

/-- C4. For every tree in which the walk succeeds and no file has a relative path under
`views/`, `Parse` on a freshly constructed collection fails with "no views were found"; no
template is compiled, `Templates` staying empty, and the partials are whatever the walk
collected. -/
theorem parse_fails_without_views {D : Type} (ρ : RangeOrder) (E : Engine D) (dir : String)
    (visits : List Visit)
    (hwalk : (Walk ρ { New with Dir := dir } visits).2 = none)
    (hno : ∀ v ∈ visits, v.info.IsDir = false →
      HasPrefix (ReplaceFirst v.path (dir ++ "/") "") "views/" = false) :
    (Parse ρ E New dir visits).2 = Result.error "no views were found" ∧
    (Parse ρ E New dir visits).1.Templates.entries = [] ∧
    (Parse ρ E New dir visits).1.Partials = (Walk ρ { New with Dir := dir } visits).1.Partials := by
  have hviews : (Walk ρ { New with Dir := dir } visits).1.Views = GoMap.empty :=
    Walk_no_view ρ { New with Dir := dir } visits hno
  have htm : (Walk ρ { New with Dir := dir } visits).1.Templates = GoMap.empty :=
    (Walk_fields ρ { New with Dir := dir } visits).1
  cases hW : Walk ρ { New with Dir := dir } visits with
  | mk t1 e =>
    rw [hW] at hwalk hviews htm
    simp only at hwalk hviews htm
    subst hwalk
    have hlen : t1.Views.len = 0 := by rw [hviews]; rfl
    have hP : Parse ρ E New dir visits = (t1, Result.error "no views were found") := by
      simp only [Parse, hW, hlen, if_true]
    rw [hP]
    exact ⟨rfl, by rw [htm]; rfl, rfl⟩

/-- Witness of C4: a tree with a layout and a partial but nothing under `views`. -/
theorem parse_fails_without_views_witness :
    (Parse RangeOrder.stored demoEngine New "templates"
      [dirVisit "templates" "templates", fileVisit "templates/base.html" "base.html" "layout",
        dirVisit "templates/partials" "partials",
        fileVisit "templates/partials/nav.html" "nav.html" "menu"]).2
      = Result.error "no views were found" :=
  (parse_fails_without_views RangeOrder.stored demoEngine "templates"
    [dirVisit "templates" "templates", fileVisit "templates/base.html" "base.html" "layout",
      dirVisit "templates/partials" "partials",
      fileVisit "templates/partials/nav.html" "nav.html" "menu"]
    (by decide) (by decide)).1

/-! ## The engine: bodies joining a namespace -/

theorem parseErr_eq_none_iff {D : Type} (E : Engine D) (name text : String) :
    E.parseErr name text = none ↔ ∃ trees, E.parse name text = Except.ok trees := by
  unfold Engine.parseErr
  cases h : E.parse name text with
  | ok trees => simp
  | error err => simp

theorem parseErr_eq_some_iff {D : Type} (E : Engine D) (name text e : String) :
    E.parseErr name text = some e ↔ E.parse name text = Except.error e := by
  unfold Engine.parseErr
  cases h : E.parse name text with
  | ok trees => simp
  | error err => simp

theorem addTree_get_ne {D : Type} (E : Engine D) (set : GoMap (Option String))
    (tree : String × String) (k : String) (hk : k ≠ tree.1) :
    (E.addTree set tree).get k = set.get k := by
  unfold Engine.addTree
  split
  · split
    · rfl
    · exact GoMap.get_set_ne _ _ _ _ hk
  · exact GoMap.get_set_ne _ _ _ _ hk

theorem addTree_get_self {D : Type} (E : Engine D) (set : GoMap (Option String))
    (tree : String × String) :
    ∃ b, (E.addTree set tree).get tree.1 = some (some b) ∧
      (E.IsEmptyTree tree.2 = false → b = tree.2) := by
  unfold Engine.addTree
  split
  · rename_i old h
    split
    · rename_i he
      exact ⟨old, h, fun hne => by rw [hne] at he; exact Bool.noConfusion he⟩
    · exact ⟨tree.2, GoMap.get_set_self _ _ _, fun _ => rfl⟩
  · exact ⟨tree.2, GoMap.get_set_self _ _ _, fun _ => rfl⟩

theorem addTree_defined {D : Type} (E : Engine D) (set : GoMap (Option String))
    (tree : String × String) (k : String) (h : ∃ b, set.get k = some (some b)) :
    ∃ b, (E.addTree set tree).get k = some (some b) := by
  by_cases hk : k = tree.1
  · subst hk
    obtain ⟨b, hb, _⟩ := addTree_get_self E set tree
    exact ⟨b, hb⟩
  · rw [addTree_get_ne E set tree k hk]
    exact h

theorem foldl_addTree_frame {D : Type} (E : Engine D) (l : List (String × String))
    (set : GoMap (Option String)) (k : String) (hk : k ∉ l.map Prod.fst) :
    (l.foldl E.addTree set).get k = set.get k := by
  induction l generalizing set with
  | nil => rfl
  | cons e rest ih =>
    have hke : k ≠ e.1 := fun h => hk (by simp [h])
    have hrest : k ∉ rest.map Prod.fst := fun h => hk (by
      simp only [List.map_cons, List.mem_cons]; exact Or.inr h)
    rw [List.foldl_cons, ih _ hrest, addTree_get_ne E set e k hke]

theorem foldl_addTree_defined {D : Type} (E : Engine D) (l : List (String × String))
    (set : GoMap (Option String)) (k : String) (h : ∃ b, set.get k = some (some b)) :
    ∃ b, (l.foldl E.addTree set).get k = some (some b) := by
  induction l generalizing set with
  | nil => exact h
  | cons e rest ih =>
    rw [List.foldl_cons]
    exact ih _ (addTree_defined E set e k h)

theorem foldl_addTree_mem {D : Type} (E : Engine D) (l : List (String × String))
    (set : GoMap (Option String)) (k : String) (hk : k ∈ l.map Prod.fst) :
    ∃ b, (l.foldl E.addTree set).get k = some (some b) := by
  induction l generalizing set with
  | nil => exact absurd hk (List.not_mem_nil _)
  | cons e rest ih =>
    rw [List.foldl_cons]
    rw [List.map_cons] at hk
    rcases List.mem_cons.1 hk with h | h
    · apply foldl_addTree_defined
      obtain ⟨b, hb, _⟩ := addTree_get_self E set e
      exact ⟨b, by rw [h]; exact hb⟩
    · exact ih _ h

theorem foldl_addTree_body {D : Type} (E : Engine D) (l : List (String × String))
    (set : GoMap (Option String)) (k b : String) (hnd : (l.map Prod.fst).Nodup)
    (hkb : (k, b) ∈ l) (hne : E.IsEmptyTree b = false) :
    (l.foldl E.addTree set).get k = some (some b) := by
  induction l generalizing set with
  | nil => exact absurd hkb (List.not_mem_nil _)
  | cons e rest ih =>
    have hnd' : e.1 ∉ rest.map Prod.fst ∧ (rest.map Prod.fst).Nodup := by
      simpa [List.nodup_cons] using hnd
    rw [List.foldl_cons]
    rcases List.mem_cons.1 hkb with h | h
    · subst h
      rw [foldl_addTree_frame E rest _ k hnd'.1]
      obtain ⟨b', hb', hbody⟩ := addTree_get_self E set (k, b)
      rw [hb', hbody hne]
    · exact ih _ hnd'.2 h

theorem addTrees_frame {D : Type} (E : Engine D) (ρ : RangeOrder)
    (set : GoMap (Option String)) (trees : GoMap String) (k : String) (hk : k ∉ trees.keys) :
    (E.addTrees ρ set trees).get k = set.get k :=
  foldl_addTree_frame E _ set k (fun h => hk (((ρ.perm String trees.entries).map Prod.fst).mem_iff.1 h))

theorem addTrees_defined {D : Type} (E : Engine D) (ρ : RangeOrder)
    (set : GoMap (Option String)) (trees : GoMap String) (k : String)
    (h : ∃ b, set.get k = some (some b)) :
    ∃ b, (E.addTrees ρ set trees).get k = some (some b) :=
  foldl_addTree_defined E _ set k h

theorem addTrees_mem {D : Type} (E : Engine D) (ρ : RangeOrder)
    (set : GoMap (Option String)) (trees : GoMap String) (k : String) (hk : k ∈ trees.keys) :
    ∃ b, (E.addTrees ρ set trees).get k = some (some b) :=
  foldl_addTree_mem E _ set k (((ρ.perm String trees.entries).map Prod.fst).mem_iff.2 hk)

theorem addTrees_body {D : Type} (E : Engine D) (ρ : RangeOrder)
    (set : GoMap (Option String)) (trees : GoMap String) (k b : String)
    (hkb : trees.get k = some b) (hne : E.IsEmptyTree b = false) :
    (E.addTrees ρ set trees).get k = some (some b) :=
  foldl_addTree_body E _ set k b
    (((ρ.perm String trees.entries).map Prod.fst).nodup_iff.2 trees.nodup)
    ((ρ.perm String trees.entries).mem_iff.2 ((GoMap.get_eq_some_iff trees k b).1 hkb)) hne

/-! ## The first pass: compiling the views -/

theorem compileViews_cons_ok {D : Type} (E : Engine D) (ρ : RangeOrder)
    (T : GoMap (Option CompiledUnit)) (name tmpl : String) (rest : List (String × String))
    (trees : GoMap String) (h : E.parse name tmpl = Except.ok trees) :
    compileViews E ρ T ((name, tmpl) :: rest) =
      compileViews E ρ
        (T.set name (some ⟨name, E.addTrees ρ (GoMap.empty.set name none) trees⟩)) rest := by
  simp [compileViews, Engine.newParse, h]

theorem compileViews_cons_err {D : Type} (E : Engine D) (ρ : RangeOrder)
    (T : GoMap (Option CompiledUnit)) (name tmpl e : String) (rest : List (String × String))
    (h : E.parse name tmpl = Except.error e) :
    compileViews E ρ T ((name, tmpl) :: rest) = (T.set name none, some e) := by
  simp [compileViews, Engine.newParse, h]

theorem compileViews_ok {D : Type} (E : Engine D) (ρ : RangeOrder)
    (T : GoMap (Option CompiledUnit)) (l : List (String × String))
    (hall : ∀ k s, (k, s) ∈ l → E.parseErr k s = none) :
    (compileViews E ρ T l).2 = none := by
  induction l generalizing T with
  | nil => rfl
  | cons e rest ih =>
    obtain ⟨name, tmpl⟩ := e
    obtain ⟨trees, htrees⟩ :=
      (parseErr_eq_none_iff E name tmpl).1 (hall name tmpl (List.mem_cons_self _ _))
    rw [compileViews_cons_ok E ρ T name tmpl rest trees htrees]
    exact ih _ (fun k s hks => hall k s (List.mem_cons_of_mem _ hks))

/-- After a first pass without error, every view of the list is registered with a non-nil
template of its own name, and the other keys of the registry are as before. -/
theorem compileViews_get {D : Type} (E : Engine D) (ρ : RangeOrder)
    (T : GoMap (Option CompiledUnit)) (l : List (String × String))
    (hok : (compileViews E ρ T l).2 = none) (k : String) :
    (k ∈ l.map Prod.fst →
      ∃ u, (compileViews E ρ T l).1.get k = some (some u) ∧ u.name = k) ∧
    (k ∉ l.map Prod.fst → (compileViews E ρ T l).1.get k = T.get k) := by
  induction l generalizing T with
  | nil => simp [compileViews]
  | cons e rest ih =>
    obtain ⟨name, tmpl⟩ := e
    cases hp : E.parse name tmpl with
    | error err =>
      rw [compileViews_cons_err E ρ T name tmpl err rest hp] at hok
      exact Option.noConfusion hok
    | ok trees =>
      rw [compileViews_cons_ok E ρ T name tmpl rest trees hp] at hok ⊢
      have ih' := ih _ hok
      constructor
      · intro hk
        by_cases hrest : k ∈ rest.map Prod.fst
        · exact ih'.1 hrest
        · have hkn : k = name := by
            rw [List.map_cons] at hk
            rcases List.mem_cons.1 hk with h | h
            · exact h
            · exact absurd h hrest
          refine ⟨⟨name, E.addTrees ρ (GoMap.empty.set name none) trees⟩, ?_, hkn.symm⟩
          rw [ih'.2 hrest, hkn]
          exact GoMap.get_set_self _ _ _
      · intro hk
        have hkn : k ≠ name := fun h => hk (by simp [h])
        have hrest : k ∉ rest.map Prod.fst := fun h => hk (by
          simp only [List.map_cons, List.mem_cons]; exact Or.inr h)
        rw [ih'.2 hrest]
        exact GoMap.get_set_ne _ _ _ _ hkn

/-! ## The second pass: attaching the partials -/

theorem attachPartials_cons_ok {D : Type} (E : Engine D) (ρ : RangeOrder) (self : String)
    (set : GoMap (Option String)) (reset : Bool) (name tmpl : String)
    (rest : List (String × String)) (trees : GoMap String)
    (h : E.parse name tmpl = Except.ok trees) :
    attachPartials E ρ self set reset ((name, tmpl) :: rest) =
      attachPartials E ρ self (E.addTrees ρ set trees) (reset || name == self) rest := by
  simp [attachPartials, h]

theorem attachPartials_cons_err {D : Type} (E : Engine D) (ρ : RangeOrder) (self : String)
    (set : GoMap (Option String)) (reset : Bool) (name tmpl e : String)
    (rest : List (String × String)) (h : E.parse name tmpl = Except.error e) :
    attachPartials E ρ self set reset ((name, tmpl) :: rest) =
      (set.set name none, reset || name == self, some e) := by
  simp [attachPartials, h]

theorem attachPartials_ok {D : Type} (E : Engine D) (ρ : RangeOrder) (self : String)
    (set : GoMap (Option String)) (reset : Bool) (l : List (String × String))
    (hall : ∀ k s, (k, s) ∈ l → E.parseErr k s = none) :
    (attachPartials E ρ self set reset l).2.2 = none := by
  induction l generalizing set reset with
  | nil => rfl
  | cons e rest ih =>
    obtain ⟨name, tmpl⟩ := e
    obtain ⟨trees, htrees⟩ :=
      (parseErr_eq_none_iff E name tmpl).1 (hall name tmpl (List.mem_cons_self _ _))
    rw [attachPartials_cons_ok E ρ self set reset name tmpl rest trees htrees]
    exact ih _ _ (fun k s hks => hall k s (List.mem_cons_of_mem _ hks))

theorem attachPartials_err {D : Type} (E : Engine D) (ρ : RangeOrder) (self : String)
    (set : GoMap (Option String)) (reset : Bool) (l : List (String × String))
    (hbad : ∃ k s, (k, s) ∈ l ∧ E.parseErr k s ≠ none) :
    ∃ k s e, (k, s) ∈ l ∧ E.parseErr k s = some e ∧
      (attachPartials E ρ self set reset l).2.2 = some e := by
  induction l generalizing set reset with
  | nil =>
    obtain ⟨k, s, hks, _⟩ := hbad
    exact absurd hks (List.not_mem_nil _)
  | cons e rest ih =>
    obtain ⟨name, tmpl⟩ := e
    cases hp : E.parse name tmpl with
    | error err =>
      rw [attachPartials_cons_err E ρ self set reset name tmpl err rest hp]
      exact ⟨name, tmpl, err, List.mem_cons_self _ _,
        (parseErr_eq_some_iff E name tmpl err).2 hp, rfl⟩
    | ok trees =>
      rw [attachPartials_cons_ok E ρ self set reset name tmpl rest trees hp]
      have hrest : ∃ k s, (k, s) ∈ rest ∧ E.parseErr k s ≠ none := by
        obtain ⟨k, s, hks, hne⟩ := hbad
        rcases List.mem_cons.1 hks with h | h
        · have h1 : k = name := congrArg Prod.fst h
          have h2 : s = tmpl := congrArg Prod.snd h
          rw [h1, h2] at hne
          exact absurd ((parseErr_eq_none_iff E name tmpl).2 ⟨trees, hp⟩) hne
        · exact ⟨k, s, h, hne⟩
      obtain ⟨k, s, e, hks, hpe, hres⟩ := ih _ _ hrest
      exact ⟨k, s, e, List.mem_cons_of_mem _ hks, hpe, hres⟩

/-- Along an inner loop without error a name that has a body keeps having one. -/
theorem attachPartials_defined {D : Type} (E : Engine D) (ρ : RangeOrder) (self : String)
    (set : GoMap (Option String)) (reset : Bool) (l : List (String × String))
    (hok : (attachPartials E ρ self set reset l).2.2 = none) (k : String)
    (h : ∃ b, set.get k = some (some b)) :
    ∃ b, (attachPartials E ρ self set reset l).1.get k = some (some b) := by
  induction l generalizing set reset with
  | nil => exact h
  | cons e rest ih =>
    obtain ⟨name, tmpl⟩ := e
    cases hp : E.parse name tmpl with
    | error err =>
      rw [attachPartials_cons_err E ρ self set reset name tmpl err rest hp] at hok
      exact Option.noConfusion hok
    | ok trees =>
      rw [attachPartials_cons_ok E ρ self set reset name tmpl rest trees hp] at hok ⊢
      exact ih _ _ hok (addTrees_defined E ρ set trees k h)

/-- After an inner loop without error, the namespace has a body under the name of every
partial. -/
theorem attachPartials_present {D : Type} (E : Engine D) (ρ : RangeOrder) (self : String)
    (set : GoMap (Option String)) (reset : Bool) (l : List (String × String))
    (hok : (attachPartials E ρ self set reset l).2.2 = none) (P src : String)
    (hP : (P, src) ∈ l) :
    ∃ b, (attachPartials E ρ self set reset l).1.get P = some (some b) := by
  induction l generalizing set reset with
  | nil => exact absurd hP (List.not_mem_nil _)
  | cons e rest ih =>
    obtain ⟨name, tmpl⟩ := e
    cases hp : E.parse name tmpl with
    | error err =>
      rw [attachPartials_cons_err E ρ self set reset name tmpl err rest hp] at hok
      exact Option.noConfusion hok
    | ok trees =>
      have hok' := hok
      rw [attachPartials_cons_ok E ρ self set reset name tmpl rest trees hp] at hok' ⊢
      rcases List.mem_cons.1 hP with h | h
      · have h1 : P = name := congrArg Prod.fst h
        subst h1
        exact attachPartials_defined E ρ self _ _ rest hok' P
          (addTrees_mem E ρ set trees P (E.parse_self P tmpl trees hp))
      · exact ih _ _ hok' h

/-- An inner loop without error leaves alone every name none of the partials defines. -/
theorem attachPartials_untouched {D : Type} (E : Engine D) (ρ : RangeOrder) (self : String)
    (set : GoMap (Option String)) (reset : Bool) (l : List (String × String))
    (hok : (attachPartials E ρ self set reset l).2.2 = none) (k : String)
    (hother : ∀ Q s, (Q, s) ∈ l → ∀ tr, E.parse Q s = Except.ok tr → k ∉ tr.keys) :
    (attachPartials E ρ self set reset l).1.get k = set.get k := by
  induction l generalizing set reset with
  | nil => rfl
  | cons e rest ih =>
    obtain ⟨name, tmpl⟩ := e
    cases hp : E.parse name tmpl with
    | error err =>
      rw [attachPartials_cons_err E ρ self set reset name tmpl err rest hp] at hok
      exact Option.noConfusion hok
    | ok trees =>
      rw [attachPartials_cons_ok E ρ self set reset name tmpl rest trees hp] at hok ⊢
      rw [ih _ _ hok (fun Q s hQ => hother Q s (List.mem_cons_of_mem _ hQ))]
      exact addTrees_frame E ρ set trees k (hother name tmpl (List.mem_cons_self _ _) trees hp)

/-- After an inner loop without error, the name of a partial is bound to the body its own
source gives it, when that body is not empty and no other partial defines the name. -/
theorem attachPartials_body {D : Type} (E : Engine D) (ρ : RangeOrder) (self : String)
    (set : GoMap (Option String)) (reset : Bool) (l : List (String × String))
    (hok : (attachPartials E ρ self set reset l).2.2 = none)
    (hnd : (l.map Prod.fst).Nodup) (P src b : String) (hP : (P, src) ∈ l)
    (trees : GoMap String) (htrees : E.parse P src = Except.ok trees)
    (hb : trees.get P = some b) (hne : E.IsEmptyTree b = false)
    (hother : ∀ Q s, (Q, s) ∈ l → Q ≠ P → ∀ tr, E.parse Q s = Except.ok tr → P ∉ tr.keys) :
    (attachPartials E ρ self set reset l).1.get P = some (some b) := by
  induction l generalizing set reset with
  | nil => exact absurd hP (List.not_mem_nil _)
  | cons e rest ih =>
    obtain ⟨name, tmpl⟩ := e
    have hnd' : name ∉ rest.map Prod.fst ∧ (rest.map Prod.fst).Nodup := by
      simpa [List.nodup_cons] using hnd
    cases hp : E.parse name tmpl with
    | error err =>
      rw [attachPartials_cons_err E ρ self set reset name tmpl err rest hp] at hok
      exact Option.noConfusion hok
    | ok tr0 =>
      rw [attachPartials_cons_ok E ρ self set reset name tmpl rest tr0 hp] at hok ⊢
      rcases List.mem_cons.1 hP with h | h
      · have h1 : P = name := congrArg Prod.fst h
        have h2 : src = tmpl := congrArg Prod.snd h
        subst h1 h2
        rw [htrees] at hp
        have h3 : trees = tr0 := by injection hp
        subst h3
        rw [attachPartials_untouched E ρ self _ _ rest hok P (fun Q s hQ tr htr =>
          hother Q s (List.mem_cons_of_mem _ hQ)
            (fun hQP => hnd'.1 (List.mem_map.2 ⟨(Q, s), hQ, hQP⟩)) tr htr)]
        exact addTrees_body E ρ set trees P b hb hne
      · exact ih _ _ hok hnd'.2 h
          (fun Q s hQ hQP tr htr => hother Q s (List.mem_cons_of_mem _ hQ) hQP tr htr)

/-- The view template is reset only by a partial that bears its name. -/
theorem attachPartials_reset {D : Type} (E : Engine D) (ρ : RangeOrder) (self : String)
    (set : GoMap (Option String)) (reset : Bool) (l : List (String × String))
    (h : (attachPartials E ρ self set reset l).2.1 = true) :
    reset = true ∨ self ∈ l.map Prod.fst := by
  induction l generalizing set reset with
  | nil => exact Or.inl h
  | cons e rest ih =>
    obtain ⟨name, tmpl⟩ := e
    have hstep : (reset || name == self) = true → reset = true ∨ self ∈ ((name, tmpl) :: rest).map Prod.fst := by
      intro hr
      rcases Bool.or_eq_true_iff.1 hr with h1 | h1
      · exact Or.inl h1
      · right
        have : name = self := by simpa using h1
        simp [this]
    cases hp : E.parse name tmpl with
    | error err =>
      rw [attachPartials_cons_err E ρ self set reset name tmpl err rest hp] at h
      exact hstep h
    | ok trees =>
      rw [attachPartials_cons_ok E ρ self set reset name tmpl rest trees hp] at h
      rcases ih _ _ h with h1 | h1
      · exact hstep h1
      · right
        simp only [List.map_cons, List.mem_cons]
        exact Or.inr h1

theorem settle_name (baseTmpl : CompiledUnit) (set : GoMap (Option String)) (reset : Bool) :
    (settle baseTmpl set reset).name = baseTmpl.name := by
  unfold settle
  split <;> rfl

theorem settle_attached (baseTmpl : CompiledUnit) (set : GoMap (Option String)) :
    settle baseTmpl set false = ⟨baseTmpl.name, set⟩ := by
  simp [settle]

theorem addPartials_cons_nil {D : Type} (E : Engine D) (ρ : RangeOrder)
    (ps : List (String × String)) (T : GoMap (Option CompiledUnit)) (view : String)
    (rest : List (String × Option CompiledUnit)) :
    addPartials E ρ ps T ((view, none) :: rest) =
      if ps.isEmpty = true then addPartials E ρ ps T rest else (T, Result.panic) := by
  simp [addPartials]

theorem addPartials_cons_ok {D : Type} (E : Engine D) (ρ : RangeOrder)
    (ps : List (String × String)) (T : GoMap (Option CompiledUnit)) (view : String)
    (base : CompiledUnit) (rest : List (String × Option CompiledUnit))
    (set : GoMap (Option String)) (reset : Bool)
    (h : attachPartials E ρ base.name base.set false ps = (set, reset, none)) :
    addPartials E ρ ps T ((view, some base) :: rest) =
      addPartials E ρ ps (T.set view (some (settle base set reset))) rest := by
  simp [addPartials, h]

theorem addPartials_cons_err {D : Type} (E : Engine D) (ρ : RangeOrder)
    (ps : List (String × String)) (T : GoMap (Option CompiledUnit)) (view : String)
    (base : CompiledUnit) (rest : List (String × Option CompiledUnit))
    (set : GoMap (Option String)) (reset : Bool) (e : String)
    (h : attachPartials E ρ base.name base.set false ps = (set, reset, some e)) :
    addPartials E ρ ps T ((view, some base) :: rest) =
      (T.set view (some (settle base set reset)), Result.error e) := by
  simp [addPartials, h]

theorem addPartials_frame {D : Type} (E : Engine D) (ρ : RangeOrder)
    (ps : List (String × String)) (T : GoMap (Option CompiledUnit))
    (l : List (String × Option CompiledUnit)) (k : String) (hk : k ∉ l.map Prod.fst) :
    (addPartials E ρ ps T l).1.get k = T.get k := by
  induction l generalizing T with
  | nil => rfl
  | cons e rest ih =>
    obtain ⟨view, x⟩ := e
    have hkn : k ≠ view := fun h => hk (by simp [h])
    have hrest : k ∉ rest.map Prod.fst := fun h => hk (by
      simp only [List.map_cons, List.mem_cons]; exact Or.inr h)
    cases x with
    | none =>
      rw [addPartials_cons_nil]
      split
      · exact ih _ hrest
      · rfl
    | some base =>
      cases ha : attachPartials E ρ base.name base.set false ps with
      | mk set re =>
        obtain ⟨reset, e⟩ := re
        cases e with
        | none =>
          rw [addPartials_cons_ok E ρ ps T view base rest set reset ha, ih _ hrest]
          exact GoMap.get_set_ne _ _ _ _ hkn
        | some err =>
          rw [addPartials_cons_err E ρ ps T view base rest set reset err ha]
          exact GoMap.get_set_ne _ _ _ _ hkn

/-- After a second pass without error, every non-nil template of the list is registered at
its key as the inner loop left it. -/
theorem addPartials_contents {D : Type} (E : Engine D) (ρ : RangeOrder)
    (ps : List (String × String)) (T : GoMap (Option CompiledUnit))
    (l : List (String × Option CompiledUnit))
    (hok : (addPartials E ρ ps T l).2 = Result.ok) (hnd : (l.map Prod.fst).Nodup)
    (k : String) (u : CompiledUnit) (hku : (k, some u) ∈ l) :
    ∃ set reset, attachPartials E ρ u.name u.set false ps = (set, reset, none) ∧
      (addPartials E ρ ps T l).1.get k = some (some (settle u set reset)) := by
  induction l generalizing T with
  | nil => exact absurd hku (List.not_mem_nil _)
  | cons e rest ih =>
    obtain ⟨view, x⟩ := e
    have hnd' : view ∉ rest.map Prod.fst ∧ (rest.map Prod.fst).Nodup := by
      simpa [List.nodup_cons] using hnd
    cases x with
    | none =>
      have hrest : (k, some u) ∈ rest := by
        rcases List.mem_cons.1 hku with h | h
        · exact Option.noConfusion (congrArg Prod.snd h)
        · exact h
      rw [addPartials_cons_nil] at hok ⊢
      split at hok
      · rename_i hemp
        rw [if_pos hemp]
        exact ih _ hok hnd'.2 hrest
      · exact Result.noConfusion hok
    | some base =>
      cases ha : attachPartials E ρ base.name base.set false ps with
      | mk set re =>
        obtain ⟨reset, e⟩ := re
        cases e with
        | some err =>
          rw [addPartials_cons_err E ρ ps T view base rest set reset err ha] at hok
          exact Result.noConfusion hok
        | none =>
          rw [addPartials_cons_ok E ρ ps T view base rest set reset ha] at hok ⊢
          rcases List.mem_cons.1 hku with h | h
          · have h1 : k = view := congrArg Prod.fst h
            have h2 : u = base := Option.some.inj (congrArg Prod.snd h)
            subst h1 h2
            refine ⟨set, reset, ha, ?_⟩
            rw [addPartials_frame E ρ ps _ rest k hnd'.1]
            exact GoMap.get_set_self _ _ _
          · exact ih _ hok hnd'.2 h

/-- A second pass without error and with at least one partial met no nil template. -/
theorem addPartials_no_nil {D : Type} (E : Engine D) (ρ : RangeOrder)
    (ps : List (String × String)) (T : GoMap (Option CompiledUnit))
    (l : List (String × Option CompiledUnit))
    (hok : (addPartials E ρ ps T l).2 = Result.ok) (hps : ps ≠ []) (k : String) :
    (k, none) ∉ l := by
  induction l generalizing T with
  | nil => exact List.not_mem_nil _
  | cons e rest ih =>
    obtain ⟨view, x⟩ := e
    cases x with
    | none =>
      rw [addPartials_cons_nil] at hok
      have hemp : ¬ ps.isEmpty = true := by
        cases ps with
        | nil => exact absurd rfl hps
        | cons p ps => simp
      rw [if_neg hemp] at hok
      exact Result.noConfusion hok
    | some base =>
      cases ha : attachPartials E ρ base.name base.set false ps with
      | mk set re =>
        obtain ⟨reset, e⟩ := re
        cases e with
        | some err =>
          rw [addPartials_cons_err E ρ ps T view base rest set reset err ha] at hok
          exact Result.noConfusion hok
        | none =>
          rw [addPartials_cons_ok E ρ ps T view base rest set reset ha] at hok
          intro hmem
          rcases List.mem_cons.1 hmem with h | h
          · exact Option.noConfusion (congrArg Prod.snd h)
          · exact ih _ hok h

/-- The second pass binds no new key and frees none, when it ranges over keys of the
registry. -/
theorem addPartials_keys {D : Type} (E : Engine D) (ρ : RangeOrder)
    (ps : List (String × String)) (T : GoMap (Option CompiledUnit))
    (l : List (String × Option CompiledUnit))
    (hl : ∀ k x, (k, x) ∈ l → T.get k ≠ none) (k : String) :
    (addPartials E ρ ps T l).1.get k = none ↔ T.get k = none := by
  induction l generalizing T with
  | nil => exact Iff.rfl
  | cons e rest ih =>
    obtain ⟨view, x⟩ := e
    have hview := hl view x (List.mem_cons_self _ _)
    have hset : ∀ v : Option CompiledUnit, ∀ k', (T.set view v).get k' = none ↔ T.get k' = none := by
      intro v k'
      by_cases hkv : k' = view
      · subst hkv
        rw [GoMap.get_set_self]
        exact ⟨fun h => Option.noConfusion h, fun h => absurd h hview⟩
      · rw [GoMap.get_set_ne _ _ _ _ hkv]
    cases x with
    | none =>
      rw [addPartials_cons_nil]
      split
      · exact ih _ (fun k' x' h => hl k' x' (List.mem_cons_of_mem _ h))
      · exact Iff.rfl
    | some base =>
      cases ha : attachPartials E ρ base.name base.set false ps with
      | mk set re =>
        obtain ⟨reset, e⟩ := re
        cases e with
        | some err =>
          rw [addPartials_cons_err E ρ ps T view base rest set reset err ha]
          exact hset _ k
        | none =>
          rw [addPartials_cons_ok E ρ ps T view base rest set reset ha]
          exact (ih _ (fun k' x' h hn =>
            hl k' x' (List.mem_cons_of_mem _ h) ((hset _ k').1 hn))).trans (hset _ k)

/-- The second pass keeps every key bound to a non-nil template of the name of the key, when
the registry and the list it ranges over are so. -/
theorem addPartials_registered {D : Type} (E : Engine D) (ρ : RangeOrder)
    (ps : List (String × String)) (T : GoMap (Option CompiledUnit))
    (l : List (String × Option CompiledUnit))
    (hl : ∀ k x, (k, x) ∈ l → ∃ u, x = some u ∧ u.name = k)
    (hT : ∀ k x, T.get k = some x → ∃ u, x = some u ∧ u.name = k) :
    ∀ k x, (addPartials E ρ ps T l).1.get k = some x → ∃ u, x = some u ∧ u.name = k := by
  induction l generalizing T with
  | nil => exact hT
  | cons e rest ih =>
    obtain ⟨view, x⟩ := e
    obtain ⟨base, hx, hname⟩ := hl view x (List.mem_cons_self _ _)
    subst hx
    have hset : ∀ (set : GoMap (Option String)) (reset : Bool) k x,
        (T.set view (some (settle base set reset))).get k = some x →
          ∃ u, x = some u ∧ u.name = k := by
      intro set reset k x hk
      by_cases hkv : k = view
      · subst hkv
        rw [GoMap.get_set_self] at hk
        exact ⟨settle base set reset, (Option.some.inj hk).symm,
          (settle_name base set reset).trans hname⟩
      · rw [GoMap.get_set_ne _ _ _ _ hkv] at hk
        exact hT k x hk
    cases ha : attachPartials E ρ base.name base.set false ps with
    | mk set re =>
      obtain ⟨reset, e⟩ := re
      cases e with
      | some err =>
        rw [addPartials_cons_err E ρ ps T view base rest set reset err ha]
        exact hset set reset
      | none =>
        rw [addPartials_cons_ok E ρ ps T view base rest set reset ha]
        exact ih _ (fun k x hkx => hl k x (List.mem_cons_of_mem _ hkx)) (hset set reset)

theorem addPartials_ok {D : Type} (E : Engine D) (ρ : RangeOrder)
    (ps : List (String × String)) (T : GoMap (Option CompiledUnit))
    (l : List (String × Option CompiledUnit))
    (hl : ∀ k x, (k, x) ∈ l → x ≠ none)
    (hps : ∀ k s, (k, s) ∈ ps → E.parseErr k s = none) :
    (addPartials E ρ ps T l).2 = Result.ok := by
  induction l generalizing T with
  | nil => rfl
  | cons e rest ih =>
    obtain ⟨view, x⟩ := e
    cases x with
    | none => exact absurd rfl (hl view none (List.mem_cons_self _ _))
    | some base =>
      cases ha : attachPartials E ρ base.name base.set false ps with
      | mk set re =>
        obtain ⟨reset, e⟩ := re
        have he : e = none := by
          have := attachPartials_ok E ρ base.name base.set false ps hps
          rw [ha] at this
          exact this
        subst he
        rw [addPartials_cons_ok E ρ ps T view base rest set reset ha]
        exact ih _ (fun k x hkx => hl k x (List.mem_cons_of_mem _ hkx))

theorem addPartials_err {D : Type} (E : Engine D) (ρ : RangeOrder)
    (ps : List (String × String)) (T : GoMap (Option CompiledUnit))
    (l : List (String × Option CompiledUnit))
    (hne : l ≠ []) (hl : ∀ k x, (k, x) ∈ l → x ≠ none)
    (hbad : ∃ k s, (k, s) ∈ ps ∧ E.parseErr k s ≠ none) :
    ∃ k s e, (k, s) ∈ ps ∧ E.parseErr k s = some e ∧
      (addPartials E ρ ps T l).2 = Result.error e := by
  cases l with
  | nil => exact absurd rfl hne
  | cons e rest =>
    obtain ⟨view, x⟩ := e
    cases x with
    | none => exact absurd rfl (hl view none (List.mem_cons_self _ _))
    | some base =>
      obtain ⟨k, s, err, hks, hpe, herr⟩ :=
        attachPartials_err E ρ base.name base.set false ps hbad
      cases ha : attachPartials E ρ base.name base.set false ps with
      | mk set re =>
        obtain ⟨reset, e⟩ := re
        rw [ha] at herr
        simp only at herr
        subst herr
        rw [addPartials_cons_err E ρ ps T view base rest set reset err ha]
        exact ⟨k, s, err, hks, hpe, rfl⟩

/-! ## Range order -/

theorem pick_mem {V : Type} (ρ : RangeOrder) (l : List (String × V)) (e : String × V) :
    e ∈ ρ.pick V l ↔ e ∈ l :=
  (ρ.perm V l).mem_iff

theorem pick_keys_mem {V : Type} (ρ : RangeOrder) (l : List (String × V)) (k : String) :
    k ∈ (ρ.pick V l).map Prod.fst ↔ k ∈ l.map Prod.fst :=
  ((ρ.perm V l).map Prod.fst).mem_iff

theorem pick_keys_nodup {V : Type} (ρ : RangeOrder) (m : GoMap V) :
    ((ρ.pick V m.entries).map Prod.fst).Nodup :=
  ((ρ.perm V m.entries).map Prod.fst).nodup_iff.2 m.nodup

/-! ## The two passes on an empty registry -/

/-- The registry after a first pass without error that started from the empty registry: its
keys are the view paths, each bound to a non-nil template of that name. -/
theorem compileViews_fresh {D : Type} (ρ : RangeOrder) (E : Engine D) (views : GoMap String)
    (hok : (compileViews E ρ GoMap.empty (ρ.pick String views.entries)).2 = none) :
    (∀ k x, (compileViews E ρ GoMap.empty (ρ.pick String views.entries)).1.get k = some x →
      (∃ u, x = some u ∧ u.name = k) ∧ k ∈ views.keys) ∧
    (∀ k, k ∈ views.keys →
      (compileViews E ρ GoMap.empty (ρ.pick String views.entries)).1.get k ≠ none) := by
  constructor
  · intro k x hk
    have hg := compileViews_get E ρ GoMap.empty (ρ.pick String views.entries) hok k
    by_cases hmem : k ∈ (ρ.pick String views.entries).map Prod.fst
    · obtain ⟨u, hu, hname⟩ := hg.1 hmem
      rw [hu] at hk
      exact ⟨⟨u, (Option.some.inj hk).symm, hname⟩, (pick_keys_mem ρ _ k).1 hmem⟩
    · rw [hg.2 hmem, GoMap.get_empty] at hk
      exact Option.noConfusion hk
  · intro k hk
    have hg := compileViews_get E ρ GoMap.empty (ρ.pick String views.entries) hok k
    obtain ⟨u, hu, _⟩ := hg.1 ((pick_keys_mem ρ _ k).2 hk)
    rw [hu]
    exact fun h => Option.noConfusion h

/-- The registry after both passes, from the empty registry, whatever the outcome of the
second: the keys are the view paths, each bound to a non-nil template of that name. -/
theorem passes_registry {D : Type} (ρ : RangeOrder) (E : Engine D)
    (views partials : GoMap String)
    (hok : (compileViews E ρ GoMap.empty (ρ.pick String views.entries)).2 = none) :
    (∀ k, k ∈ (addPartials E ρ (ρ.pick String partials.entries)
        (compileViews E ρ GoMap.empty (ρ.pick String views.entries)).1
        (ρ.pick (Option CompiledUnit)
          (compileViews E ρ GoMap.empty (ρ.pick String views.entries)).1.entries)).1.keys ↔
      k ∈ views.keys) ∧
    (∀ k, k ∈ views.keys → ∃ u, (addPartials E ρ (ρ.pick String partials.entries)
        (compileViews E ρ GoMap.empty (ρ.pick String views.entries)).1
        (ρ.pick (Option CompiledUnit)
          (compileViews E ρ GoMap.empty (ρ.pick String views.entries)).1.entries)).1.get k
        = some (some u) ∧ u.name = k) := by
  obtain ⟨hT1, hT2⟩ := compileViews_fresh ρ E views hok
  have hmem : ∀ k x, (k, x) ∈ ρ.pick (Option CompiledUnit)
      (compileViews E ρ GoMap.empty (ρ.pick String views.entries)).1.entries →
      (compileViews E ρ GoMap.empty (ρ.pick String views.entries)).1.get k = some x :=
    fun k x hkx => (GoMap.get_eq_some_iff _ k x).2 ((pick_mem ρ _ _).1 hkx)
  have hreg := addPartials_registered E ρ (ρ.pick String partials.entries)
    (compileViews E ρ GoMap.empty (ρ.pick String views.entries)).1
    (ρ.pick (Option CompiledUnit)
      (compileViews E ρ GoMap.empty (ρ.pick String views.entries)).1.entries)
    (fun k x hkx => (hT1 k x (hmem k x hkx)).1)
    (fun k x hk => (hT1 k x hk).1)
  have hnone := addPartials_keys E ρ (ρ.pick String partials.entries)
    (compileViews E ρ GoMap.empty (ρ.pick String views.entries)).1
    (ρ.pick (Option CompiledUnit)
      (compileViews E ρ GoMap.empty (ρ.pick String views.entries)).1.entries)
    (fun k x hkx => by rw [hmem k x hkx]; exact fun h => Option.noConfusion h)
  have hkeys : ∀ k, k ∈ (addPartials E ρ (ρ.pick String partials.entries)
        (compileViews E ρ GoMap.empty (ρ.pick String views.entries)).1
        (ρ.pick (Option CompiledUnit)
          (compileViews E ρ GoMap.empty (ρ.pick String views.entries)).1.entries)).1.keys ↔
      k ∈ views.keys := by
    intro k
    constructor
    · intro hk
      have h1 : (compileViews E ρ GoMap.empty (ρ.pick String views.entries)).1.get k ≠ none :=
        fun h => (GoMap.get_eq_none_iff _ k).1 ((hnone k).2 h) hk
      cases hx : (compileViews E ρ GoMap.empty (ρ.pick String views.entries)).1.get k with
      | none => exact absurd hx h1
      | some x => exact (hT1 k x hx).2
    · intro hk
      by_contra hnot
      exact hT2 k hk ((hnone k).1 ((GoMap.get_eq_none_iff _ k).2 hnot))
  refine ⟨hkeys, fun k hk => ?_⟩
  obtain ⟨x, hx⟩ := (GoMap.mem_keys_iff _ k).1 ((hkeys k).2 hk)
  obtain ⟨u, hu, hname⟩ := hreg k x hx
  exact ⟨u, by rw [hx, hu], hname⟩

theorem Parse_passes {D : Type} (ρ : RangeOrder) (E : Engine D) (t : Templates) (dir : String)
    (visits : List Visit)
    (hwalk : (Walk ρ { t with Dir := dir } visits).2 = none)
    (hviews : (Walk ρ { t with Dir := dir } visits).1.Views.len ≠ 0)
    (hcomp : (compileViews E ρ (Walk ρ { t with Dir := dir } visits).1.Templates
      (ρ.pick String (Walk ρ { t with Dir := dir } visits).1.Views.entries)).2 = none) :
    Parse ρ E t dir visits =
      ({ (Walk ρ { t with Dir := dir } visits).1 with
          Templates := (addPartials E ρ
            (ρ.pick String (Walk ρ { t with Dir := dir } visits).1.Partials.entries)
            (compileViews E ρ (Walk ρ { t with Dir := dir } visits).1.Templates
              (ρ.pick String (Walk ρ { t with Dir := dir } visits).1.Views.entries)).1
            (ρ.pick (Option CompiledUnit)
              (compileViews E ρ (Walk ρ { t with Dir := dir } visits).1.Templates
                (ρ.pick String
                  (Walk ρ { t with Dir := dir } visits).1.Views.entries)).1.entries)).1 },
        (addPartials E ρ
            (ρ.pick String (Walk ρ { t with Dir := dir } visits).1.Partials.entries)
            (compileViews E ρ (Walk ρ { t with Dir := dir } visits).1.Templates
              (ρ.pick String (Walk ρ { t with Dir := dir } visits).1.Views.entries)).1
            (ρ.pick (Option CompiledUnit)
              (compileViews E ρ (Walk ρ { t with Dir := dir } visits).1.Templates
                (ρ.pick String
                  (Walk ρ { t with Dir := dir } visits).1.Views.entries)).1.entries)).2) := by
  cases hW : Walk ρ { t with Dir := dir } visits with
  | mk t1 e =>
    rw [hW] at hwalk hviews hcomp
    simp only at hwalk hviews hcomp
    subst hwalk
    cases hC : compileViews E ρ t1.Templates (ρ.pick String t1.Views.entries) with
    | mk tmpls e1 =>
      rw [hC] at hcomp
      simp only at hcomp
      subst hcomp
      simp only [Parse, hW, hviews, if_false, hC]

theorem Parse_ok_passes {D : Type} (ρ : RangeOrder) (E : Engine D) (t : Templates)
    (dir : String) (visits : List Visit) (hok : (Parse ρ E t dir visits).2 = Result.ok) :
    (Walk ρ { t with Dir := dir } visits).2 = none ∧
    (Walk ρ { t with Dir := dir } visits).1.Views.len ≠ 0 ∧
    (compileViews E ρ (Walk ρ { t with Dir := dir } visits).1.Templates
      (ρ.pick String (Walk ρ { t with Dir := dir } visits).1.Views.entries)).2 = none := by
  cases hW : Walk ρ { t with Dir := dir } visits with
  | mk t1 e =>
    cases e with
    | some err =>
      simp only [Parse, hW] at hok
      exact Result.noConfusion hok
    | none =>
      by_cases hlen : t1.Views.len = 0
      · simp only [Parse, hW, hlen, if_true] at hok
        exact Result.noConfusion hok
      · cases hC : compileViews E ρ t1.Templates (ρ.pick String t1.Views.entries) with
        | mk tmpls e1 =>
          cases e1 with
          | some err =>
            simp only [Parse, hW, hlen, if_false, hC] at hok
            exact Result.noConfusion hok
          | none => exact ⟨rfl, hlen, rfl⟩

/-! ## The build -/

/-- After a second pass without error in which no partial bears the name of a registered
template, every key of the registry is bound to a template whose namespace has a body under
the name of every partial: the body that the source of the partial gives it, when that body
is not empty and no other partial defines the name. -/
theorem addPartials_attach {D : Type} (ρ : RangeOrder) (E : Engine D)
    (partials : GoMap String) (T : GoMap (Option CompiledUnit))
    (hok : (addPartials E ρ (ρ.pick String partials.entries) T
      (ρ.pick (Option CompiledUnit) T.entries)).2 = Result.ok)
    (hcol : ∀ P ∈ partials.keys,
      ∀ e ∈ (addPartials E ρ (ρ.pick String partials.entries) T
        (ρ.pick (Option CompiledUnit) T.entries)).1.entries,
        e.2.map CompiledUnit.name ≠ some P)
    (V : String)
    (hV : V ∈ (addPartials E ρ (ρ.pick String partials.entries) T
      (ρ.pick (Option CompiledUnit) T.entries)).1.keys)
    (P src : String) (hP : partials.get P = some src) :
    ∃ u, (addPartials E ρ (ρ.pick String partials.entries) T
        (ρ.pick (Option CompiledUnit) T.entries)).1.get V = some (some u) ∧
      (∃ b, u.set.get P = some (some b)) ∧
      (∀ b, E.ownBody P src = some b → E.IsEmptyTree b = false →
        (∀ Q s, partials.get Q = some s → Q ≠ P → E.defines Q s P = false) →
        u.set.get P = some (some b)) := by
  have hmem : ∀ k x, (k, x) ∈ ρ.pick (Option CompiledUnit) T.entries → T.get k = some x :=
    fun k x hkx => (GoMap.get_eq_some_iff _ k x).2 ((pick_mem ρ _ _).1 hkx)
  have hnone := addPartials_keys E ρ (ρ.pick String partials.entries) T
    (ρ.pick (Option CompiledUnit) T.entries)
    (fun k x hkx => by rw [hmem k x hkx]; exact fun h => Option.noConfusion h)
  have hPmem : (P, src) ∈ ρ.pick String partials.entries :=
    (pick_mem ρ _ _).2 ((GoMap.get_eq_some_iff _ P src).1 hP)
  have hps : ρ.pick String partials.entries ≠ [] := List.ne_nil_of_mem hPmem
  have hTV : T.get V ≠ none := fun h => (GoMap.get_eq_none_iff _ V).1 ((hnone V).2 h) hV
  cases hx : T.get V with
  | none => exact absurd hx hTV
  | some x =>
    have hVx : (V, x) ∈ ρ.pick (Option CompiledUnit) T.entries :=
      (pick_mem ρ _ _).2 ((GoMap.get_eq_some_iff _ V x).1 hx)
    cases x with
    | none => exact absurd hVx (addPartials_no_nil E ρ _ T _ hok hps V)
    | some u0 =>
      obtain ⟨set, reset, hatt, hget⟩ := addPartials_contents E ρ _ T _ hok
        (pick_keys_nodup ρ T) V u0 hVx
      have hreset : reset = false := by
        cases hr : reset with
        | false => rfl
        | true =>
          subst hr
          have h1 : (attachPartials E ρ u0.name u0.set false
              (ρ.pick String partials.entries)).2.1 = true := by rw [hatt]
          rcases attachPartials_reset E ρ u0.name u0.set false _ h1 with h2 | h2
          · exact Bool.noConfusion h2
          · have hkey : u0.name ∈ partials.keys := (pick_keys_mem ρ _ _).1 h2
            have hent := (GoMap.get_eq_some_iff _ V _).1 hget
            exact absurd (by simp [settle_name]) (hcol u0.name hkey _ hent)
      subst hreset
      rw [settle_attached] at hget
      have hok' : (attachPartials E ρ u0.name u0.set false
          (ρ.pick String partials.entries)).2.2 = none := by rw [hatt]
      refine ⟨⟨u0.name, set⟩, hget, ?_, ?_⟩
      · have := attachPartials_present E ρ u0.name u0.set false _ hok' P src hPmem
        rw [hatt] at this
        exact this
      · intro b hown hne hother
        unfold Engine.ownBody at hown
        cases htrees : E.parse P src with
        | error err => rw [htrees] at hown; exact Option.noConfusion hown
        | ok trees =>
          rw [htrees] at hown
          simp only at hown
          have := attachPartials_body E ρ u0.name u0.set false _ hok'
            (pick_keys_nodup ρ partials) P src b hPmem trees htrees hown hne
            (fun Q s hQ hQP tr htr => by
              have hd := hother Q s
                ((GoMap.get_eq_some_iff _ Q s).2 ((pick_mem ρ _ _).1 hQ)) hQP
              unfold Engine.defines at hd
              rw [htr] at hd
              simp only at hd
              apply (GoMap.get_eq_none_iff tr P).1
              cases hg : tr.get P with
              | none => rfl
              | some v => rw [hg] at hd; exact Bool.noConfusion hd)
          rw [hatt] at this
          exact this

/-- C2, as the claim states it, fails twice. An empty partial does not replace the body its
name already has: with the partial `base.html` an empty file and a view that defines
`base.html` in a block as `fromview`, the build succeeds, and under the name `base.html` the
unit of the view holds `fromview`, not the empty body of the source of the partial. And on a
collection built before with another views directory, a partial can bear the path of a view:
`New` on the name of the view template resets that template and disassociates it from its
namespace, so the second build succeeds and the unit of `views/index.html` has no template
named `base.html`, a partial of the collection. -/
theorem parse_unit_misses_partial :
    ((Parse RangeOrder.stored demoEngine New "templates" emptyLayoutTree).2 = Result.ok ∧
      (Parse RangeOrder.stored demoEngine New "templates" emptyLayoutTree).1.Partials.get
        "base.html" = some "" ∧
      demoEngine.ownBody "base.html" "" = some "" ∧
      Lookup (Parse RangeOrder.stored demoEngine New "templates" emptyLayoutTree).1
        "views/index.html" "base.html" = some (some "fromview")) ∧
    ((Parse RangeOrder.stored demoEngine (retryCollection RangeOrder.stored) "templates"
        demoTree).2 = Result.ok ∧
      (Parse RangeOrder.stored demoEngine (retryCollection RangeOrder.stored) "templates"
        demoTree).1.Partials.get "base.html" = some "layout" ∧
      (Parse RangeOrder.stored demoEngine (retryCollection RangeOrder.stored) "templates"
        demoTree).1.Partials.get "views/index.html" = some "page" ∧
      "views/index.html" ∈ (Parse RangeOrder.stored demoEngine
        (retryCollection RangeOrder.stored) "templates" demoTree).1.Templates.keys ∧
      Lookup (Parse RangeOrder.stored demoEngine (retryCollection RangeOrder.stored)
        "templates" demoTree).1 "views/index.html" "base.html" = none) :=
  ⟨⟨by decide, by decide, by decide, by decide⟩,
    ⟨by decide, by decide, by decide, by decide, by decide⟩⟩

/-- C2, amended. Attachment completeness by name: after every successful `Parse` in which no
partial path is the name of a registered template, for every key `V` of `Templates` and every
partial path `P` of `Partials`, the compiled unit of `V` is non-nil and has a sub-template
named `P` with a parsed body; that body is the one the source of `P` gives to `P` whenever it
is not empty and no other partial defines a template named `P`. On a freshly constructed
collection, whatever its views directory and extension set, no partial path is the name of a
registered template, and every key of `Templates` is bound to a non-nil unit named by the
key. -/
theorem parse_attaches_partial_names {D : Type} (ρ : RangeOrder) (E : Engine D)
    (dir : String) (visits : List Visit) :
    (∀ t : Templates,
      (Parse ρ E t dir visits).2 = Result.ok →
      (∀ P ∈ (Parse ρ E t dir visits).1.Partials.keys,
        ∀ e ∈ (Parse ρ E t dir visits).1.Templates.entries,
          e.2.map CompiledUnit.name ≠ some P) →
      ∀ V ∈ (Parse ρ E t dir visits).1.Templates.keys,
      ∀ P src, (Parse ρ E t dir visits).1.Partials.get P = some src →
        (∃ b, Lookup (Parse ρ E t dir visits).1 V P = some (some b)) ∧
        (∀ b, E.ownBody P src = some b → E.IsEmptyTree b = false →
          (∀ Q s, (Parse ρ E t dir visits).1.Partials.get Q = some s → Q ≠ P →
            E.defines Q s P = false) →
          Lookup (Parse ρ E t dir visits).1 V P = some (some b))) ∧
    (∀ (viewsDir : String) (exts : GoMap Bool),
      (Parse ρ E { New with ViewsDir := viewsDir, Extensions := exts } dir visits).2
        = Result.ok →
      (∀ P ∈ (Parse ρ E { New with ViewsDir := viewsDir, Extensions := exts } dir
          visits).1.Partials.keys,
        ∀ e ∈ (Parse ρ E { New with ViewsDir := viewsDir, Extensions := exts } dir
          visits).1.Templates.entries, e.2.map CompiledUnit.name ≠ some P) ∧
      (∀ V ∈ (Parse ρ E { New with ViewsDir := viewsDir, Extensions := exts } dir
          visits).1.Templates.keys,
        ∃ u, (Parse ρ E { New with ViewsDir := viewsDir, Extensions := exts } dir
          visits).1.Templates.get V = some (some u) ∧ u.name = V)) := by
  constructor
  · intro t hok
    obtain ⟨hwalk, hviews, hcomp⟩ := Parse_ok_passes ρ E t dir visits hok
    have hPeq := Parse_passes ρ E t dir visits hwalk hviews hcomp
    rw [hPeq] at hok ⊢
    simp only at hok ⊢
    intro hcol V hV P src hP
    obtain ⟨u, hu, hpres, hbody⟩ := addPartials_attach ρ E _ _ hok hcol V hV P src hP
    have hL : ∀ r, u.set.get P = r → Lookup
        { (Walk ρ { t with Dir := dir } visits).1 with
          Templates := (addPartials E ρ
            (ρ.pick String (Walk ρ { t with Dir := dir } visits).1.Partials.entries)
            (compileViews E ρ (Walk ρ { t with Dir := dir } visits).1.Templates
              (ρ.pick String (Walk ρ { t with Dir := dir } visits).1.Views.entries)).1
            (ρ.pick (Option CompiledUnit)
              (compileViews E ρ (Walk ρ { t with Dir := dir } visits).1.Templates
                (ρ.pick String
                  (Walk ρ { t with Dir := dir } visits).1.Views.entries)).1.entries)).1 }
        V P = r := by
      intro r hr
      simp only [Lookup, hu, hr]
    obtain ⟨b, hb⟩ := hpres
    exact ⟨⟨b, hL _ hb⟩, fun b' hown hne hother => hL _ (hbody b' hown hne hother)⟩
  · intro viewsDir exts hok
    obtain ⟨hwalk, hviews, hcomp⟩ := Parse_ok_passes ρ E _ dir visits hok
    have hPeq := Parse_passes ρ E _ dir visits hwalk hviews hcomp
    have htm : (Walk ρ { ({ New with ViewsDir := viewsDir, Extensions := exts } : Templates)
        with Dir := dir } visits).1.Templates = GoMap.empty := (Walk_fields ρ _ visits).1
    have hcls := Walk_classified ρ
      { ({ New with ViewsDir := viewsDir, Extensions := exts } : Templates) with Dir := dir }
      visits
      (by intro k hk; simp [New, GoMap.keys, GoMap.empty] at hk)
      (by intro k hk; simp [New, GoMap.keys, GoMap.empty] at hk)
    rw [hPeq]
    simp only
    rw [htm] at hcomp ⊢
    obtain ⟨hkeys, hreg⟩ := passes_registry ρ E
      (Walk ρ { ({ New with ViewsDir := viewsDir, Extensions := exts } : Templates)
        with Dir := dir } visits).1.Views
      (Walk ρ { ({ New with ViewsDir := viewsDir, Extensions := exts } : Templates)
        with Dir := dir } visits).1.Partials hcomp
    constructor
    · intro P hPk e he hname
      obtain ⟨k, x⟩ := e
      have hget := (GoMap.get_eq_some_iff _ k x).2 he
      have hk := (hkeys k).1 ((GoMap.mem_keys_iff _ k).2 ⟨x, hget⟩)
      obtain ⟨u, hu, hun⟩ := hreg k hk
      rw [hget] at hu
      have hx : x = some u := Option.some.inj hu
      subst hx
      have hPk' : P = k := by
        have : some u.name = some P := hname
        rw [hun] at this
        exact (Option.some.inj this).symm
      subst hPk'
      have h1 := hcls.1 P hk
      have h2 := hcls.2 P hPk
      rw [h1] at h2
      exact Bool.noConfusion h2
    · intro V hV
      exact hreg V ((hkeys V).1 hV)

/-- Witness of C2, amended: after the build of the small tree on a fresh collection, the unit
of the view has the layout `base.html` under its name. -/
theorem parse_attaches_partial_names_witness :
    ∃ b, Lookup (Parse RangeOrder.reversed demoEngine New "templates" demoTree).1
      "views/index.html" "base.html" = some (some b) :=
  ((parse_attaches_partial_names RangeOrder.reversed demoEngine "templates" demoTree).1 New
    (by decide) (by decide) "views/index.html" (by decide) "base.html" "layout"
    (by decide)).1

/-! ## The walk of a readable tree -/

theorem parseFile_clean (ρ : RangeOrder) (t : Templates) (v : Visit) (herr : v.err = none)
    (hread : v.info.IsDir = false → ∃ c, v.read = Except.ok c) :
    (parseFile ρ t v).2 = none := by
  by_cases hd : v.info.IsDir = true
  · rw [parseFile_skip ρ t v herr (Or.inl hd)]
  · have hd' : v.info.IsDir = false := by simpa using hd
    by_cases hc : check ρ t (Ext v.info.Name) = true
    · obtain ⟨c, hr⟩ := hread hd'
      rw [parseFile_store ρ t v c herr hd' hc hr]
      split <;> rfl
    · rw [parseFile_skip ρ t v herr (Or.inr (by simpa using hc))]

theorem Walk_clean (ρ : RangeOrder) (t : Templates) (visits : List Visit)
    (hclean : ∀ v ∈ visits, v.err = none ∧ (v.info.IsDir = false → ∃ c, v.read = Except.ok c)) :
    (Walk ρ t visits).2 = none := by
  induction visits generalizing t with
  | nil => rfl
  | cons v rest ih =>
    have hv := hclean v (List.mem_cons_self _ _)
    rw [Walk_cons, if_pos (parseFile_clean ρ t v hv.1 hv.2)]
    exact ih _ (fun w hw => hclean w (List.mem_cons_of_mem _ hw))

theorem Walk_views_mono (ρ : RangeOrder) (t : Templates) (visits : List Visit) (k : String)
    (hk : k ∈ t.Views.keys) : k ∈ (Walk ρ t visits).1.Views.keys := by
  induction visits generalizing t with
  | nil => exact hk
  | cons v rest ih =>
    have hstep : k ∈ (parseFile ρ t v).1.Views.keys := by
      rcases parseFile_cases ρ t v with h | ⟨c, _, _, _, h⟩ | ⟨c, _, _, _, h⟩
      · rw [h]; exact hk
      · rw [h]; exact (GoMap.mem_keys_set _ _ _ _).2 (Or.inr hk)
      · rw [h]; exact hk
    rw [Walk_cons]
    split
    · exact ih _ hstep
    · exact hstep

/-- Every readable file of the walk whose relative path lies under the views directory is a
key of `Views` after the walk, when no extension filter is configured. -/
theorem Walk_stores_view (ρ : RangeOrder) (t : Templates) (visits : List Visit)
    (hclean : ∀ v ∈ visits, v.err = none ∧ (v.info.IsDir = false → ∃ c, v.read = Except.ok c))
    (hext : t.Extensions.len = 0) (v : Visit) (hv : v ∈ visits) (hd : v.info.IsDir = false)
    (hp : HasPrefix (ReplaceFirst v.path (t.Dir ++ "/") "") (t.ViewsDir ++ "/") = true) :
    ReplaceFirst v.path (t.Dir ++ "/") "" ∈ (Walk ρ t visits).1.Views.keys := by
  induction visits generalizing t with
  | nil => exact absurd hv (List.not_mem_nil _)
  | cons w rest ih =>
    have hw := hclean w (List.mem_cons_self _ _)
    have hf := parseFile_fields ρ t w
    rw [Walk_cons, if_pos (parseFile_clean ρ t w hw.1 hw.2)]
    rcases List.mem_cons.1 hv with h | h
    · subst h
      obtain ⟨c, hr⟩ := hw.2 hd
      apply Walk_views_mono
      rw [parseFile_store ρ t v c hw.1 hd ((check_eq_true_iff ρ t _).2 (Or.inl hext)) hr,
        if_pos hp]
      exact (GoMap.mem_keys_set _ _ _ _).2 (Or.inl rfl)
    · have := ih (parseFile ρ t w).1 (fun x hx => hclean x (List.mem_cons_of_mem _ hx))
        (by rw [hf.2.1]; exact hext) h (by rw [hf.2.2.2, hf.2.2.1]; exact hp)
      rw [hf.2.2.2] at this
      exact this

theorem parseFile_origin (ρ : RangeOrder) (t : Templates) (v : Visit) (k s : String) :
    ((parseFile ρ t v).1.Views.get k = some s → t.Views.get k = some s ∨
      (v.info.IsDir = false ∧ v.read = Except.ok s ∧
        ReplaceFirst v.path (t.Dir ++ "/") "" = k)) ∧
    ((parseFile ρ t v).1.Partials.get k = some s → t.Partials.get k = some s ∨
      (v.info.IsDir = false ∧ v.read = Except.ok s ∧
        ReplaceFirst v.path (t.Dir ++ "/") "" = k)) := by
  rcases parseFile_cases ρ t v with h | ⟨c, hd, hr, _, h⟩ | ⟨c, hd, hr, _, h⟩
  · rw [h]; exact ⟨Or.inl, Or.inl⟩
  · rw [h]
    refine ⟨fun hg => ?_, Or.inl⟩
    by_cases hk : k = ReplaceFirst v.path (t.Dir ++ "/") ""
    · subst hk
      simp only [GoMap.get_set_self] at hg
      exact Or.inr ⟨hd, by rw [hr, Option.some.inj hg], rfl⟩
    · simp only [GoMap.get_set_ne _ _ _ _ hk] at hg
      exact Or.inl hg
  · rw [h]
    refine ⟨Or.inl, fun hg => ?_⟩
    by_cases hk : k = ReplaceFirst v.path (t.Dir ++ "/") ""
    · subst hk
      simp only [GoMap.get_set_self] at hg
      exact Or.inr ⟨hd, by rw [hr, Option.some.inj hg], rfl⟩
    · simp only [GoMap.get_set_ne _ _ _ _ hk] at hg
      exact Or.inl hg

/-- Whatever the stores hold after a walk was there before or is the contents of a walked
file, under the relative path of that file. -/
theorem Walk_origin (ρ : RangeOrder) (t : Templates) (visits : List Visit) (k s : String) :
    ((Walk ρ t visits).1.Views.get k = some s → t.Views.get k = some s ∨
      ∃ v ∈ visits, v.info.IsDir = false ∧ v.read = Except.ok s ∧
        ReplaceFirst v.path (t.Dir ++ "/") "" = k) ∧
    ((Walk ρ t visits).1.Partials.get k = some s → t.Partials.get k = some s ∨
      ∃ v ∈ visits, v.info.IsDir = false ∧ v.read = Except.ok s ∧
        ReplaceFirst v.path (t.Dir ++ "/") "" = k) := by
  induction visits generalizing t with
  | nil => exact ⟨Or.inl, Or.inl⟩
  | cons w rest ih =>
    have hstep := parseFile_origin ρ t w k s
    have hf := parseFile_fields ρ t w
    have lift : ∀ {A : Prop},
        (A ∨ (w.info.IsDir = false ∧ w.read = Except.ok s ∧
          ReplaceFirst w.path (t.Dir ++ "/") "" = k)) →
        A ∨ ∃ v ∈ w :: rest, v.info.IsDir = false ∧ v.read = Except.ok s ∧
          ReplaceFirst v.path (t.Dir ++ "/") "" = k := by
      intro A h
      rcases h with h | h
      · exact Or.inl h
      · exact Or.inr ⟨w, List.mem_cons_self _ _, h⟩
    rw [Walk_cons]
    split
    · have ih' := ih (parseFile ρ t w).1
      rw [hf.2.2.2] at ih'
      constructor
      · intro hg
        rcases ih'.1 hg with h | ⟨v, hv, hrest⟩
        · exact lift (hstep.1 h)
        · exact Or.inr ⟨v, List.mem_cons_of_mem _ hv, hrest⟩
      · intro hg
        rcases ih'.2 hg with h | ⟨v, hv, hrest⟩
        · exact lift (hstep.2 h)
        · exact Or.inr ⟨v, List.mem_cons_of_mem _ hv, hrest⟩
    · exact ⟨fun hg => lift (hstep.1 hg), fun hg => lift (hstep.2 hg)⟩

/-- The build of a well-formed tree succeeds when `parseFile` computes a relative path under
`views/` for one of its files. Every entry being walked without error, every file readable
and a valid template under its relative path, `Parse` on a freshly constructed collection
returns no error; the keys of `Templates` are a rearrangement of the keys of `Views`, they are
the relative paths computed for the walked files that lie under `views/`, and each key is
bound to a non-nil compiled unit whose name is the key. -/
theorem parse_succeeds_when_classified {D : Type} (ρ : RangeOrder) (E : Engine D) (dir : String)
    (visits : List Visit)
    (hclean : ∀ v ∈ visits, v.err = none ∧ (v.info.IsDir = false → ∃ c, v.read = Except.ok c))
    (hparses : ∀ v ∈ visits, ∀ c, v.info.IsDir = false → v.read = Except.ok c →
      E.parseErr (ReplaceFirst v.path (dir ++ "/") "") c = none)
    (hview : ∃ v ∈ visits, v.info.IsDir = false ∧
      HasPrefix (ReplaceFirst v.path (dir ++ "/") "") "views/" = true) :
    (Parse ρ E New dir visits).2 = Result.ok ∧
    List.Perm (Parse ρ E New dir visits).1.Templates.keys
      (Parse ρ E New dir visits).1.Views.keys ∧
    (∀ k, k ∈ (Parse ρ E New dir visits).1.Templates.keys ↔
      ∃ v ∈ visits, v.info.IsDir = false ∧ ReplaceFirst v.path (dir ++ "/") "" = k ∧
        HasPrefix k "views/" = true) ∧
    (∀ k, k ∈ (Parse ρ E New dir visits).1.Templates.keys →
      ∃ u, (Parse ρ E New dir visits).1.Templates.get k = some (some u) ∧ u.name = k) := by
  have hwalk := Walk_clean ρ { New with Dir := dir } visits hclean
  have htm : (Walk ρ { New with Dir := dir } visits).1.Templates = GoMap.empty :=
    (Walk_fields ρ _ visits).1
  have hcls := Walk_classified ρ { New with Dir := dir } visits
    (by intro k hk; simp [New, GoMap.keys, GoMap.empty] at hk)
    (by intro k hk; simp [New, GoMap.keys, GoMap.empty] at hk)
  have hstore : ∀ v ∈ visits, v.info.IsDir = false →
      HasPrefix (ReplaceFirst v.path (dir ++ "/") "") "views/" = true →
      ReplaceFirst v.path (dir ++ "/") "" ∈
        (Walk ρ { New with Dir := dir } visits).1.Views.keys :=
    fun v hv hd hp => Walk_stores_view ρ { New with Dir := dir } visits hclean rfl v hv hd hp
  have hviews : (Walk ρ { New with Dir := dir } visits).1.Views.len ≠ 0 := by
    obtain ⟨v0, hv0, hd0, hp0⟩ := hview
    have hmem := hstore v0 hv0 hd0 hp0
    intro h0
    have hnil := (GoMap.len_eq_zero_iff _).1 h0
    unfold GoMap.keys at hmem
    rw [hnil] at hmem
    simp at hmem
  have hVsrc : ∀ k s,
      (k, s) ∈ ρ.pick String (Walk ρ { New with Dir := dir } visits).1.Views.entries →
      E.parseErr k s = none := by
    intro k s hks
    have hg := (GoMap.get_eq_some_iff _ k s).2 ((pick_mem ρ _ _).1 hks)
    rcases (Walk_origin ρ _ visits k s).1 hg with h | ⟨v, hv, hd, hr, hk⟩
    · exact Option.noConfusion h
    · rw [← hk]; exact hparses v hv s hd hr
  have hPsrc : ∀ k s,
      (k, s) ∈ ρ.pick String (Walk ρ { New with Dir := dir } visits).1.Partials.entries →
      E.parseErr k s = none := by
    intro k s hks
    have hg := (GoMap.get_eq_some_iff _ k s).2 ((pick_mem ρ _ _).1 hks)
    rcases (Walk_origin ρ _ visits k s).2 hg with h | ⟨v, hv, hd, hr, hk⟩
    · exact Option.noConfusion h
    · rw [← hk]; exact hparses v hv s hd hr
  have hcomp := compileViews_ok E ρ (Walk ρ { New with Dir := dir } visits).1.Templates _ hVsrc
  have hP := Parse_passes ρ E New dir visits hwalk hviews hcomp
  rw [hP]
  simp only
  rw [htm] at hcomp ⊢
  obtain ⟨hkeys, hreg⟩ := passes_registry ρ E (Walk ρ { New with Dir := dir } visits).1.Views
    (Walk ρ { New with Dir := dir } visits).1.Partials hcomp
  have hok2 := addPartials_ok E ρ
    (ρ.pick String (Walk ρ { New with Dir := dir } visits).1.Partials.entries)
    (compileViews E ρ GoMap.empty
      (ρ.pick String (Walk ρ { New with Dir := dir } visits).1.Views.entries)).1
    (ρ.pick (Option CompiledUnit) (compileViews E ρ GoMap.empty
      (ρ.pick String (Walk ρ { New with Dir := dir } visits).1.Views.entries)).1.entries)
    (fun k x hkx hx => by
      have hget := (GoMap.get_eq_some_iff _ k x).2 ((pick_mem ρ _ _).1 hkx)
      obtain ⟨⟨u, hu, _⟩, _⟩ := (compileViews_fresh ρ E _ hcomp).1 k x hget
      rw [hu] at hx
      exact Option.noConfusion hx)
    hPsrc
  refine ⟨hok2, ?_, ?_, ?_⟩
  · exact (List.perm_ext_iff_of_nodup (GoMap.nodup _) (GoMap.nodup _)).2 hkeys
  · intro k
    rw [hkeys]
    constructor
    · intro hk
      obtain ⟨s, hs⟩ := (GoMap.mem_keys_iff _ k).1 hk
      rcases (Walk_origin ρ _ visits k s).1 hs with h | ⟨v, hv, hd, _, hvk⟩
      · exact Option.noConfusion h
      · exact ⟨v, hv, hd, hvk, hcls.1 k hk⟩
    · rintro ⟨v, hv, hd, hvk, hp⟩
      rw [← hvk] at hp ⊢
      exact hstore v hv hd hp
  · intro k hk
    exact hreg k ((hkeys k).1 hk)

/-- The small tree under the root `templates` is such a tree. -/
theorem parse_succeeds_on_demoTree :
    (Parse RangeOrder.stored demoEngine New "templates" demoTree).2 = Result.ok ∧
    List.Perm (Parse RangeOrder.stored demoEngine New "templates" demoTree).1.Templates.keys
      (Parse RangeOrder.stored demoEngine New "templates" demoTree).1.Views.keys :=
  have h := parse_succeeds_when_classified RangeOrder.stored demoEngine "templates" demoTree
    (by
      intro v hv
      simp only [demoTree, List.mem_cons, List.mem_singleton, List.not_mem_nil, or_false] at hv
      rcases hv with rfl | rfl | rfl | rfl | rfl | rfl <;> simp [dirVisit, fileVisit])
    (by
      intro v hv c hd hr
      simp only [demoTree, List.mem_cons, List.mem_singleton, List.not_mem_nil, or_false] at hv
      rcases hv with rfl | rfl | rfl | rfl | rfl | rfl <;>
        simp [dirVisit, fileVisit] at hd hr <;> subst hr <;> decide)
    (by decide)
  ⟨h.1, h.2.1⟩

/-- C3 at its failing input. The tree under the root `templates/` is well-formed: the walk
reports no error, both files are readable and parse, and `index.html` lies in the directory
`views` right below the root. `Parse` on a freshly constructed collection fails all the same
with "no views were found", in either range order, and the registry has no entry. -/
theorem parse_well_formed_tree_fails_on_slash_root :
    slashRootTree.map Visit.path
      = ["templates/", "templates/base.html", "templates/views",
          "templates/views/index.html"] ∧
    (∀ v ∈ slashRootTree, v.err = none ∧
      (v.info.IsDir = false → v.read.toOption.isSome = true)) ∧
    demoEngine.parseErr "base.html" "layout" = none ∧
    demoEngine.parseErr "views/index.html" "page" = none ∧
    (∀ v ∈ slashRootTree, v.info.IsDir = false → ∀ c ∈ v.read.toOption,
      demoEngine.parseErr (ReplaceFirst v.path ("templates/" ++ "/") "") c = none) ∧
    (Parse RangeOrder.stored demoEngine New "templates/" slashRootTree).2
      = Result.error "no views were found" ∧
    (Parse RangeOrder.reversed demoEngine New "templates/" slashRootTree).2
      = Result.error "no views were found" ∧
    (Parse RangeOrder.stored demoEngine New "templates/" slashRootTree).1.Templates.keys = [] ∧
    (Parse RangeOrder.stored demoEngine New "templates/" slashRootTree).1.Views.keys = [] :=
  ⟨by decide, by decide, by decide, by decide, by decide, by decide, by decide, by decide,
    by decide⟩

/-- C7, as the claim states it, fails when a partial has the syntax error: the tree has the
valid view `views/index.html` and the partial `partials/nav.html` with an unterminated
`define` block; `Parse` returns the parse error, and the collection it hands back has the view
registered in `Templates`. -/
theorem parse_partial_error_registry_not_empty :
    (Parse RangeOrder.stored demoEngine New "templates" badPartialTree).2
      = Result.error "template: unexpected EOF" ∧
    (Parse RangeOrder.stored demoEngine New "templates" badPartialTree).1.Templates.keys
      = ["views/index.html"] ∧
    (Parse RangeOrder.stored demoEngine New "templates" badPartialTree).1.Templates.len ≠ 0 :=
  ⟨by decide, by decide, by decide⟩

/-- C7, amended. A build that fails on a template syntax error is not atomic with respect to
the registry: `Parse` hands back the collection together with the error, and `Templates`
keeps what was compiled before the failure. Whenever the walk succeeds and collects at least
one view, every view source parses and some partial source does not, `Parse` returns the
parse error of a partial, and `Templates` holds exactly one entry per view path, each bound to
a non-nil compiled unit named by its path. -/
theorem parse_partial_error_keeps_views {D : Type} (ρ : RangeOrder) (E : Engine D)
    (dir : String) (visits : List Visit)
    (hwalk : (Walk ρ { New with Dir := dir } visits).2 = none)
    (hviews : (Walk ρ { New with Dir := dir } visits).1.Views.len ≠ 0)
    (hV : ∀ e ∈ (Walk ρ { New with Dir := dir } visits).1.Views.entries,
      E.parseErr e.1 e.2 = none)
    (hbad : ∃ e ∈ (Walk ρ { New with Dir := dir } visits).1.Partials.entries,
      E.parseErr e.1 e.2 ≠ none) :
    (∃ k s e, (Parse ρ E New dir visits).1.Partials.get k = some s ∧
      E.parseErr k s = some e ∧ (Parse ρ E New dir visits).2 = Result.error e) ∧
    (Parse ρ E New dir visits).1.Views = (Walk ρ { New with Dir := dir } visits).1.Views ∧
    List.Perm (Parse ρ E New dir visits).1.Templates.keys
      (Parse ρ E New dir visits).1.Views.keys ∧
    (∀ k, k ∈ (Parse ρ E New dir visits).1.Views.keys →
      ∃ u, (Parse ρ E New dir visits).1.Templates.get k = some (some u) ∧ u.name = k) := by
  have htm : (Walk ρ { New with Dir := dir } visits).1.Templates = GoMap.empty :=
    (Walk_fields ρ _ visits).1
  have hcomp := compileViews_ok E ρ (Walk ρ { New with Dir := dir } visits).1.Templates
    (ρ.pick String (Walk ρ { New with Dir := dir } visits).1.Views.entries)
    (fun k s hks => hV (k, s) ((pick_mem ρ _ _).1 hks))
  have hP := Parse_passes ρ E New dir visits hwalk hviews hcomp
  rw [hP]
  simp only
  rw [htm] at hcomp ⊢
  obtain ⟨hkeys, hreg⟩ := passes_registry ρ E (Walk ρ { New with Dir := dir } visits).1.Views
    (Walk ρ { New with Dir := dir } visits).1.Partials hcomp
  obtain ⟨hT1, hT2⟩ := compileViews_fresh ρ E _ hcomp
  have hne : ρ.pick (Option CompiledUnit) (compileViews E ρ GoMap.empty
      (ρ.pick String (Walk ρ { New with Dir := dir } visits).1.Views.entries)).1.entries
      ≠ [] := by
    cases hent : (Walk ρ { New with Dir := dir } visits).1.Views.entries with
    | nil => exact absurd ((GoMap.len_eq_zero_iff _).2 hent) hviews
    | cons e rest =>
      have hk : e.1 ∈ (Walk ρ { New with Dir := dir } visits).1.Views.keys := by
        unfold GoMap.keys
        rw [hent]
        exact List.mem_map.2 ⟨e, List.mem_cons_self _ _, rfl⟩
      rw [← hent]
      obtain ⟨x, hx⟩ := Option.ne_none_iff_exists'.1 (hT2 e.1 hk)
      intro hnil
      have hmem := (pick_mem ρ _ _).2 ((GoMap.get_eq_some_iff _ _ _).1 hx)
      rw [hnil] at hmem
      exact absurd hmem (List.not_mem_nil _)
  obtain ⟨b, hb, hbne⟩ := hbad
  obtain ⟨k, s, e, hks, hpe, hres⟩ := addPartials_err E ρ
    (ρ.pick String (Walk ρ { New with Dir := dir } visits).1.Partials.entries)
    (compileViews E ρ GoMap.empty
      (ρ.pick String (Walk ρ { New with Dir := dir } visits).1.Views.entries)).1
    _ hne
    (fun k x hkx hx => by
      have hget := (GoMap.get_eq_some_iff _ k x).2 ((pick_mem ρ _ _).1 hkx)
      obtain ⟨⟨u, hu, _⟩, _⟩ := hT1 k x hget
      rw [hu] at hx
      exact Option.noConfusion hx)
    ⟨b.1, b.2, (pick_mem ρ _ _).2 hb, hbne⟩
  refine ⟨⟨k, s, e, (GoMap.get_eq_some_iff _ k s).2 ((pick_mem ρ _ _).1 hks), hpe, hres⟩,
    trivial, ?_, hreg⟩
  exact (List.perm_ext_iff_of_nodup (GoMap.nodup _) (GoMap.nodup _)).2 hkeys

/-- Witness of C7, amended: the tree with a valid view and a partial that does not parse. -/
theorem parse_partial_error_keeps_views_witness :
    ∃ u, (Parse RangeOrder.reversed demoEngine New "templates"
        badPartialTree).1.Templates.get "views/index.html" = some (some u) ∧
      u.name = "views/index.html" :=
  (parse_partial_error_keeps_views RangeOrder.reversed demoEngine "templates" badPartialTree
    (by decide) (by decide) (by decide) (by decide)).2.2.2 "views/index.html" (by decide)

/-! ## Behaviour at the failing inputs -/

/-- C8 at its failing input. The only view of the tree, `views/bad.html`, has an unterminated
`define` block. `Parse` returns the parse error, having bound the key `views/bad.html` to the
nil template; `Get` finds the key and returns a handle without error; `Render` through that
handle calls `ExecuteTemplate` on the nil template and panics, in either range order. -/
theorem render_after_failed_parse_panics :
    (Parse RangeOrder.stored demoEngine New "templates" badViewTree).2
      = Result.error "template: unexpected EOF" ∧
    (Parse RangeOrder.stored demoEngine New "templates" badViewTree).1.Templates.keys
      = ["views/bad.html"] ∧
    (Get (Parse RangeOrder.stored demoEngine New "templates" badViewTree).1
      "views/bad.html").err = none ∧
    Render demoEngine
      (Get (Parse RangeOrder.stored demoEngine New "templates" badViewTree).1 "views/bad.html")
      "" "base.html" () = ("", Result.panic) ∧
    Render demoEngine
      (Get (Parse RangeOrder.reversed demoEngine New "templates" badViewTree).1
        "views/bad.html")
      "" "base.html" () = ("", Result.panic) :=
  ⟨by decide, by decide, by decide, by decide, by decide⟩

/-- C9 at its failing input. With the root written `templates/`, as in the documented usage,
the walk names the view `templates/views/index.html`; `parseFile` looks for `templates//` in
that path, finds nothing to strip and stores the file as the partial
`templates/views/index.html`. No view is found, `Parse` fails, and `Get` of
`views/index.html` carries "template not found". -/
theorem parse_trailing_slash_root_misses_view :
    Join (Join "templates/" "views") "index.html" = "templates/views/index.html" ∧
    ReplaceFirst "templates/views/index.html" ("templates/" ++ "/") ""
      = "templates/views/index.html" ∧
    (Parse RangeOrder.stored demoEngine New "templates/" slashRootTree).2
      = Result.error "no views were found" ∧
    (Parse RangeOrder.stored demoEngine New "templates/" slashRootTree).1.Views.get
      "views/index.html" = none ∧
    (Parse RangeOrder.stored demoEngine New "templates/" slashRootTree).1.Partials.get
      "templates/views/index.html" = some "page" ∧
    (Get (Parse RangeOrder.stored demoEngine New "templates/" slashRootTree).1
      "views/index.html").err = some "template not found" :=
  ⟨by decide, by decide, by decide, by decide, by decide, by decide⟩

end templates
